import Mathlib

/-
  Verification of the core of the handel multi-signature aggregation
  library (package handel): a shallow embedding in Lean 4 of the bitset
  data model, the replace store (store.go), the binomial partitioner
  (unnamed partitioner source), the evaluator processing loop
  (processing.go) and the orchestrator's final-signature / stop logic
  (handel.go), together with proofs about them.

  Conventions:
  * Go machine integers are modelled as Nat (indices, cardinalities,
    sizes) or Int (scores, which Go computes with possibly-negative
    intermediate results).
  * Go maps are modelled as total functions into Option.
  * Go in-place mutation is modelled by explicit state passing.
  * Go panics and Go errors are modelled with Except.
-/

namespace Handel

/-- Modelled from the spec: the aggregated scheme signature (the scheme
itself - BLS over BN256 - is an external collaborator, not in the core
sources).  `Combine` is the scheme's aggregation; it is modelled as the
formal commutative sum of individual contributions, i.e. a multiset of
contribution tags, with `0` as the empty signature returned by
`Constructor.Signature()`. -/
abbrev Sig := Multiset Nat

/-- Modelled from the spec: `BitSet` - a fixed-length bitset, bits
indexed `0..L-1` (the implementation is not part of the core sources;
the spec gives its contract in sections 3 and 4.A).  Backed by a list of
booleans whose length is the bit length. -/
structure BitSet where
  bits : List Bool
deriving DecidableEq

namespace BitSet

/-- Spec operation `bit_length`. -/
def BitLength (b : BitSet) : Nat := b.bits.length

/-- Spec operation `get(i)`: bits outside the range read as false. -/
def Get (b : BitSet) (i : Nat) : Bool := b.bits.getD i false

/-- Spec operation `set(i, v)`: out-of-range writes are ignored. -/
def Set (b : BitSet) (i : Nat) (v : Bool) : BitSet := ⟨b.bits.set i v⟩

/-- Spec operation `cardinality`: the number of set bits. -/
def Cardinality (b : BitSet) : Nat := b.bits.count true

/-- Spec operation union; the spec requires both operands to have equal
length (the theorems below always supply equal lengths). -/
def Or (a b : BitSet) : BitSet := ⟨List.zipWith Bool.or a.bits b.bits⟩

/-- Spec operation intersection (equal lengths required by the spec). -/
def And (a b : BitSet) : BitSet := ⟨List.zipWith Bool.and a.bits b.bits⟩

/-- Symmetric difference, used by `unsafeCheckMerge`. -/
def Xor (a b : BitSet) : BitSet := ⟨List.zipWith Bool.xor a.bits b.bits⟩

/-- Spec operation superset test: `a.IsSuperSet b` holds when every set
bit of `b` is set in `a`. -/
def IsSuperSet (a b : BitSet) : Bool :=
  (List.range b.BitLength).all (fun i => !(b.Get i) || a.Get i)

/-- Cardinality of the intersection, as used by `unsafeEvaluate`. -/
def IntersectionCardinality (a b : BitSet) : Nat := (a.And b).Cardinality

/-- The list of set-bit positions in increasing order.  This models the
`NextSet(0)` / `NextSet(pos + 1)` iteration of `unsafeCheckMerge`. -/
def setPositions (b : BitSet) : List Nat :=
  (List.range b.BitLength).filter (fun i => b.Get i)

end BitSet

/-- Modelled from the spec: `MultiSignature` - a pair of a bitset and an
aggregated scheme signature (src has only its uses; the struct itself is
in the non-core wire-format source).  Field names follow the Go struct. -/
structure MultiSignature where
  Signature : Sig
  BitSet : BitSet
deriving DecidableEq

/-- Go method `MultiSignature.Cardinality`. -/
def MultiSignature.Cardinality (m : MultiSignature) : Nat := m.BitSet.Cardinality

/-- Go struct `incomingSig` (store.go): an unverified or verified
incoming signature tagged with its origin and level. -/
structure incomingSig where
  origin : Nat
  level : Nat
  ms : MultiSignature
deriving DecidableEq

/-- Go method `incomingSig.Individual`: the spec defines `individual ⇔
cardinality == 1`. -/
def incomingSig.Individual (sp : incomingSig) : Bool := sp.ms.Cardinality == 1

/-- Go struct `replaceStore` (store.go).  Go maps become total functions
into `Option`; the per-level byte keys become `Nat`.  Of the partitioner
the store only consumes `Size`, so the `part` field is that function. -/
structure replaceStore where
  m : Nat → Option MultiSignature
  highest : Nat
  part : Nat → Nat
  indivSigsVerified : Nat → BitSet
  individualSigs : Nat → Nat → Option MultiSignature

namespace replaceStore

/-- Go constructor `newReplaceStore` (store.go).  The Go initialisation
of `indivSigsVerified` is marked `TODO` and calls a `part.Levels()`
method that does not exist in the partitioner source; following the spec
store-state invariant ("the bit length of the per-level individual
bitset equals the candidate-set size for that level") each level gets an
all-false bitset of the candidate-set size.  `individualSigs` starts
empty (in Go the field is a map that the TODO leaves uninitialised; the
spec requires the mapping to be present). -/
def newReplaceStore (sizeF : Nat → Nat) : replaceStore where
  m := fun _ => none
  highest := 0
  part := sizeF
  indivSigsVerified := fun l => ⟨List.replicate (sizeF l) false⟩
  individualSigs := fun _ _ => none

/-- Go method `replaceStore.store` (store.go line 238): record the new
best for the level and bump `highest`. -/
def store (r : replaceStore) (level : Nat) (ms : MultiSignature) : replaceStore :=
  { r with
    m := fun l => if l = level then some ms else r.m l
    highest := if level > r.highest then level else r.highest }

/-- The signature of the verified individual recorded at `pos`, as read
inside the `unsafeCheckMerge` fold (`r.individualSigs[level][pos]`).  The
spec store-state invariant guarantees the entry exists whenever the
matching bit of `indivSigsVerified` is set; reads outside that invariant
give the empty signature. -/
def indivSigAt (r : replaceStore) (level pos : Nat) : Sig :=
  match r.individualSigs level pos with
  | some s => s.Signature
  | none => 0

/-- The fold at the end of `unsafeCheckMerge` (store.go lines 191-200):
iterate over the set bits of `iS` in increasing order; set each position
in the running best's bitset and combine the recorded individual
signature with the running best's signature. -/
def foldIndiv (r : replaceStore) (level : Nat) (best : MultiSignature)
    (iS : BitSet) : MultiSignature :=
  iS.setPositions.foldl
    (fun best pos =>
      { Signature := indivSigAt r level pos + best.Signature
        BitSet := best.BitSet.Set pos true })
    best

/-- Go method `replaceStore.unsafeCheckMerge` (store.go lines 170-203).
Returns the signature to store together with a flag: `true` if it should
replace the previous one, `false` if the incoming signature is
discarded.  The Go receiver `vl.And(best)` reads the running best's
bitset. -/
def unsafeCheckMerge (r : replaceStore) (level : Nat) (ms : MultiSignature) :
    Option MultiSignature × Bool :=
  match r.m level with
  | none => (some ms, true)
  | some ms2 =>
    let merged := ms.BitSet.Or ms2.BitSet
    let bestOpt : Option MultiSignature :=
      if merged.Cardinality = ms2.Cardinality + ms.Cardinality then
        -- disjoint: combine the two signatures starting from the empty one
        some { Signature := 0 + ms.Signature + ms2.Signature, BitSet := merged }
      else if ms.Cardinality < ms2.Cardinality then none
      else some ms
    match bestOpt with
    | none => (none, false)
    | some best =>
      let vl := r.indivSigsVerified level
      let iS := (vl.And best.BitSet).Xor vl
      (some (foldIndiv r level best iS), true)

/-- The index of the only set bit of an individual multi-signature,
recorded as the key of `individualSigs`.  The Go index expression is
redacted in the source; modelled from the spec: the individual is
inserted at its `origin_local_index`, i.e. the position of the single
set bit. -/
def singleIndex (ms : MultiSignature) : Nat := ms.BitSet.setPositions.headD 0

/-- The individual-recording block of `replaceStore.Store` (store.go
lines 81-85): when the incoming multi-signature has cardinality 1, merge
its bit into the per-level verified bitset and insert it into the
individuals map. -/
def recordIndiv (r : replaceStore) (level : Nat) (ms : MultiSignature) : replaceStore :=
  if ms.Cardinality = 1 then
    { r with
      indivSigsVerified := fun l =>
        if l = level then (r.indivSigsVerified level).Or ms.BitSet
        else r.indivSigsVerified l
      individualSigs := fun l p =>
        if l = level ∧ p = singleIndex ms then some ms
        else r.individualSigs l p }
  else r

/-- Go method `replaceStore.Store` (store.go lines 78-91): record the
incoming signature as an individual when its cardinality is 1, merge it
with the current best, store the merge result when the merge says so,
and return the resulting signature together with the accepted flag (the
Go code returns `n, true` unconditionally).  The state is returned
explicitly. -/
def Store (r : replaceStore) (level : Nat) (ms : MultiSignature) :
    replaceStore × Option MultiSignature × Bool :=
  let r1 := recordIndiv r level ms
  match unsafeCheckMerge r1 level ms with
  | (some n, true) => (r1.store level n, some n, true)
  | (n, _) => (r1, n, true)

/-- Go method `replaceStore.Best` (store.go lines 205-210). -/
def Best (r : replaceStore) (level : Nat) : Option MultiSignature × Bool :=
  match r.m level with
  | some ms => (some ms, true)
  | none => (none, false)

/-- The level-saturation test at store.go line 109: a best exists whose
cardinality is the number of signatures to receive at the level. -/
def evalSaturated (r : replaceStore) (sp : incomingSig) : Bool :=
  match r.m sp.level with
  | some ms2 => (r.part sp.level : Int) == (ms2.Cardinality : Int)
  | none => false

/-- The already-verified-individual test at store.go line 114. -/
def evalAlreadyIndiv (r : replaceStore) (sp : incomingSig) : Bool :=
  sp.Individual && (r.indivSigsVerified sp.level).Get sp.origin

/-- The superset test at store.go line 119: an equal or better aggregate
has already been verified. -/
def evalSuperseded (r : replaceStore) (sp : incomingSig) : Bool :=
  match r.m sp.level with
  | some ms2 => !sp.Individual && ms2.BitSet.IsSuperSet sp.ms.BitSet
  | none => false

/-- Store.go line 128: the cardinality of the incoming bitset joined
with the already-verified individuals (`c1`). -/
def withIndivCard (r : replaceStore) (sp : incomingSig) : Int :=
  ((sp.ms.BitSet.Or (r.indivSigsVerified sp.level)).Cardinality : Int)

/-- `addedSigs` as assigned at store.go lines 124-143: `c1` when there
is no best, `c1 - |ms2|` on overlap (a replacement), `c1` on a disjoint
merge. -/
def evalAdded (r : replaceStore) (sp : incomingSig) : Int :=
  match r.m sp.level with
  | none => withIndivCard r sp
  | some ms2 =>
    if sp.ms.BitSet.IntersectionCardinality ms2.BitSet ≠ 0 then
      withIndivCard r sp - ms2.Cardinality
    else withIndivCard r sp

/-- `existingSigs` as assigned at store.go lines 124-143: the current
best's cardinality on a disjoint merge, otherwise 0. -/
def evalExisting (r : replaceStore) (sp : incomingSig) : Int :=
  match r.m sp.level with
  | none => 0
  | some ms2 =>
    if sp.ms.BitSet.IntersectionCardinality ms2.BitSet ≠ 0 then 0
    else (ms2.Cardinality : Int)

/-- Go method `replaceStore.unsafeEvaluate` (store.go lines 103-164),
with the branch conditions and the `addedSigs`/`existingSigs`
assignments named by the helper definitions above. -/
def unsafeEvaluate (r : replaceStore) (sp : incomingSig) : Int :=
  if evalSaturated r sp then 0
  else if evalAlreadyIndiv r sp then 0
  else if evalSuperseded r sp then 0
  else if evalAdded r sp ≤ 0 then (if sp.Individual then 1 else 0)
  else if evalAdded r sp + evalExisting r sp = (r.part sp.level : Int) then
    1000000 - sp.level
  else 30000 - (sp.level : Int) * 100 + evalAdded r sp

/-- Go method `replaceStore.Evaluate` (store.go lines 93-101): the
negative-score panic is modelled as an error result. -/
def Evaluate (r : replaceStore) (sp : incomingSig) : Except String Int :=
  let score := unsafeEvaluate r sp
  if score < 0 then .error "cannot have a negative score!" else .ok score

end replaceStore

/-- One `Store` call, state part only. -/
def applyStore (r : replaceStore) (p : Nat × MultiSignature) : replaceStore :=
  (r.Store p.1 p.2).1

/-- A sequence of `Store` calls. -/
def applyStores (r : replaceStore) (l : List (Nat × MultiSignature)) : replaceStore :=
  l.foldl applyStore r

/-- A sequence of `Store` calls at a fixed level. -/
def applyStoresAt (r : replaceStore) (level : Nat) (l : List MultiSignature) : replaceStore :=
  l.foldl (fun r ms => (r.Store level ms).1) r

/-- Modelled from the spec: helper `log2` (not in the core sources); the
spec sets `max_level() → log₂(N)`, i.e. the rounded-up base-2 logarithm
of the registry size, which for the power-of-two sizes considered here
is the exact logarithm. -/
def log2 (n : Nat) : Nat := Nat.clog 2 n

/-- Modelled from the spec: helper `isSet(id, idx)` (not in the core
sources) - whether bit `idx` of `id` is set.  The partitioner calls it
with a Go `uint` conversion of a possibly negative index; a negative
index converts to a huge shift amount, for which the bit reads as
false. -/
def isSetI (id : Nat) (idx : Int) : Bool :=
  if 0 ≤ idx then id.testBit idx.toNat else false

/-- Go struct `binomialPartitioner` (partitioner source): the candidate
tree computed from this node's id.  The registry is consulted only for
its size here. -/
structure binomialPartitioner where
  id : Nat
  bitsize : Nat
  size : Nat

/-- Go constructor `NewBinPartitioner`. -/
def NewBinPartitioner (id : Nat) (regSize : Nat) : binomialPartitioner where
  id := id
  bitsize := log2 regSize
  size := regSize

namespace binomialPartitioner

/-- The loop of `rangeLevel` (partitioner source lines 113-138), with
the iteration count made explicit: in the call with fuel `steps + 1` the
Go loop variable is `idx = maxIdx + steps`, so the Go test
`idx == maxIdx` is `steps = 0`; the loop runs while `idx >= maxIdx`
(encoded by the fuel) and `min <= max`, and breaks after an update when
`max == min`, `max-1 == 0` (over Go ints: `max == 1`) or
`min == size`. -/
def rangeLoop (id size : Nat) (maxIdx : Int) : Nat → Nat → Nat → Nat × Nat
  | 0, mn, mx => (mn, mx)
  | steps + 1, mn, mx =>
    if mn ≤ mx then
      let idx : Int := maxIdx + steps
      let middle := (mx + mn) / 2
      let p : Nat × Nat :=
        if isSetI id idx then
          -- invert the order at the requested common prefix length
          if steps = 0 then (mn, middle) else (middle, mx)
        else
          if steps = 0 then (middle, mx) else (mn, middle)
      if p.2 = p.1 then p
      else if p.2 = 1 ∨ p.1 = size then p
      else rangeLoop id size maxIdx steps p.1 p.2
    else (mn, mx)

/-- Go method `binomialPartitioner.rangeLevel` (partitioner source lines
103-140): the range `[min, max)` of the candidate set at the given
level.  `level < 0` is impossible for `Nat`; `level > bitsize` is
rejected as in Go. -/
def rangeLevel (c : binomialPartitioner) (level : Nat) : Except String (Nat × Nat) :=
  if level > c.bitsize then
    .error "handel: invalid level for computing candidate set"
  else
    let maxIdx : Int := (level : Int) - 1
    let steps : Nat := ((c.bitsize : Int) - maxIdx).toNat
    .ok (rangeLoop c.id c.size maxIdx steps 0 c.size)

/-- Go method `binomialPartitioner.Size` (partitioner source lines
203-209). -/
def Size (c : binomialPartitioner) (level : Nat) : Except String Nat :=
  match c.rangeLevel level with
  | .error e => .error e
  | .ok (mn, mx) => .ok (mx - mn)

/-- The candidate set at a level, as the set of ids in the
`rangeLevel` range. -/
def candSet (c : binomialPartitioner) (level : Nat) : Finset Nat :=
  match c.rangeLevel level with
  | .ok (mn, mx) => Finset.Ico mn mx
  | .error _ => ∅

end binomialPartitioner

/-- Go struct `sigPair` (processing.go / handel.go): an incoming
signature as carried through the processing queue; `ms` is a pointer in
Go, hence optional here, and `origin` is a Go int32. -/
structure sigPair where
  origin : Int
  level : Nat
  ms : Option MultiSignature
deriving DecidableEq

/-- Go value `deathPillPair = sigPair{-1, 121, nil}` (processing.go
line 14). -/
def deathPillPair : sigPair := ⟨-1, 121, none⟩

/-- Result of one `readTodos` pass: the Go return values `(done, best)`
together with the `f.todos` state left behind. -/
structure readResult where
  done : Bool
  best : Option sigPair
  todos : List sigPair
deriving DecidableEq

/-- The scan loop of `evaluatorProcessing.readTodos` (processing.go
lines 160-196): iterate over the pending list; return immediately on the
death pill (leaving `todos` untouched); skip pairs with nil `ms`; keep a
pair whose positive mark does not beat the best mark; otherwise demote
the previous best into the new pending list and adopt the pair.  The
statistics counters do not affect the result and are elided. -/
def readLoop (eval : sigPair → Int) (orig : List sigPair) :
    List sigPair → List sigPair → Option sigPair → Int → readResult
  | [], newTodos, best, _ => ⟨false, best, newTodos⟩
  | pair :: rest, newTodos, best, bestMark =>
    if pair = deathPillPair then ⟨true, none, orig⟩
    else if pair.ms = none then readLoop eval orig rest newTodos best bestMark
    else
      let mark := eval pair
      if 0 < mark then
        if mark ≤ bestMark then
          readLoop eval orig rest (newTodos ++ [pair]) best bestMark
        else
          readLoop eval orig rest (newTodos ++ best.toList) (some pair) mark
      else readLoop eval orig rest newTodos best bestMark

/-- Go method `evaluatorProcessing.readTodos` (processing.go lines
148-197) on a non-empty pending list (the condition-variable wait only
matters for the empty list). -/
def readTodos (eval : sigPair → Int) (todos : List sigPair) : readResult :=
  readLoop eval todos todos [] none 0

/-- An identity as consumed by signature verification: its index and its
public key, the latter modelled (like signatures) as a formal
combination of key shares, with `0` the empty key returned by
`Constructor.PublicKey()`. -/
structure Identity where
  idx : Nat
  pk : Multiset Nat
deriving DecidableEq

/-- The aggregate public key computed by `verifySignature`
(processing.go lines 396-402): combine the public keys of the identities
at the set bits of the multi-signature's bitset. -/
def aggregateKeyOf (ids : List Identity) (bs : BitSet) : Multiset Nat :=
  (List.range bs.BitLength).foldl
    (fun acc i => if bs.Get i then acc + (ids.getD i ⟨0, 0⟩).pk else acc) 0

/-- Go function `verifySignature` (processing.go lines 383-409),
parameterised by the partitioner's `IdentitiesAt` and by the scheme's
pairing check (an external collaborator): reject when `IdentitiesAt`
fails, when the bitset length differs from the candidate-set size, or
when the scheme check fails.  A nil `ms` (never passed in Go) is an
error here. -/
def verifySignature (idsAt : Nat → Except String (List Identity))
    (schemeVerify : Multiset Nat → Sig → Bool) (pair : sigPair) :
    Except String Unit :=
  match pair.ms with
  | none => .error "handel: nil multi-signature"
  | some ms =>
    match idsAt pair.level with
    | .error e => .error e
    | .ok ids =>
      if ms.BitSet.BitLength ≠ ids.length then
        .error "handel: inconsistent bitset with given level"
      else if schemeVerify (aggregateKeyOf ids ms.BitSet) ms.Signature then
        .ok ()
      else .error "handel: invalid signature"

/-- Go method `evaluatorProcessing.verifyAndPublish` (processing.go
lines 247-265), reduced to whether the pair is published on the
`Verified` channel: with `sigSleepTime <= 0` the pair is verified and
published only on success; otherwise the verification is replaced by a
sleep and the pair is always published. -/
def verifyAndPublish (sigSleepTime : Int)
    (idsAt : Nat → Except String (List Identity))
    (schemeVerify : Multiset Nat → Sig → Bool) (sp : sigPair) : Bool :=
  if sigSleepTime ≤ 0 then
    match verifySignature idsAt schemeVerify sp with
    | .ok _ => true
    | .error _ => false
  else true

/-- The orchestrator state consumed by `checkFinalSignature` (handel.go):
the best final signature emitted so far, the done flag, and the history
of emissions on the `out` channel. -/
structure handelState where
  best : Option MultiSignature
  done : Bool
  out : List MultiSignature

/-- Go method `Handel.checkFinalSignature` (handel.go lines 599-623),
with the `Store.FullSignature()` result passed as the argument `sig`:
below the threshold nothing happens; otherwise the signature is adopted
and emitted when there is no previous best or it is strictly larger,
except when the orchestrator is done. -/
def checkFinalSignature (threshold : Nat) (h : handelState)
    (sig : MultiSignature) : handelState :=
  if sig.BitSet.Cardinality < threshold then h
  else
    let newBest := fun (st : handelState) (ms : MultiSignature) =>
      if st.done then st
      else { st with best := some ms, out := st.out ++ [ms] }
    match h.best with
    | none => newBest h sig
    | some b => if sig.Cardinality > b.Cardinality then newBest h sig else h

/-- An event seen by the orchestrator's final-signature logic: a
verified signature dispatched to the actors (with the full signature the
store then serves), or a `Stop` call setting the done flag. -/
inductive handelEvent where
  | verified (sig : MultiSignature)
  | stop

/-- One orchestrator step for the final-signature logic. -/
def handelStep (threshold : Nat) (h : handelState) (e : handelEvent) : handelState :=
  match e with
  | .verified sig => checkFinalSignature threshold h sig
  | .stop => { h with done := true }

/-- The orchestrator's initial final-signature state (`NewHandel`): no
best emitted, not done, nothing sent on `out`. -/
def initHandelState : handelState := ⟨none, false, []⟩

/-- A run of the final-signature logic over a list of events. -/
def runHandel (threshold : Nat) (events : List handelEvent) : handelState :=
  events.foldl (handelStep threshold) initHandelState

/-- Go struct `fifoProcessing`, the fields driving `Stop`
(processing.go lines 269-278): the done flag and the two channels'
closed state. -/
structure fifoState where
  done : Bool
  inClosed : Bool
  outClosed : Bool
deriving DecidableEq

/-- Go method `fifoProcessing.Stop` (processing.go lines 365-374):
return early when already done, else mark done and close both
channels. -/
def fifoStop (f : fifoState) : fifoState :=
  if f.done then f else { done := true, inClosed := true, outClosed := true }

/-- Closing a Go channel: panics (an error here) when the channel is
already closed. -/
def closeChan (closed : Bool) : Except String Bool :=
  if closed then .error "close of closed channel" else .ok true

/-- The `Handel` fields driving `Stop` (handel.go lines 409-446): the
ticker, the processing routine, the done flag and the `out` channel's
closed state. -/
structure handelStopState where
  tickerStopped : Bool
  proc : fifoState
  done : Bool
  outClosed : Bool
deriving DecidableEq

/-- Go method `Handel.Stop` (handel.go lines 535-542): stop the ticker
(idempotent), stop the processing routine, set done, and close the `out`
channel - unconditionally, which panics when `out` is already closed. -/
def handelStop (s : handelStopState) : Except String handelStopState :=
  let s1 := { s with tickerStopped := true }
  let s2 := { s1 with proc := fifoStop s1.proc }
  let s3 := { s2 with done := true }
  match closeChan s3.outClosed with
  | .ok _ => .ok { s3 with outClosed := true }
  | .error e => .error e

/-- The `Handel` stop-relevant state right after `NewHandel`. -/
def initHandelStopState : handelStopState := ⟨false, ⟨false, false, false⟩, false, false⟩

/-! Pointwise lemmas about the bitset model. -/

namespace BitSet

lemma getD_zipWith (f : Bool → Bool → Bool) (hf : f false false = false) :
    ∀ (a b : List Bool), a.length = b.length → ∀ i,
      (List.zipWith f a b).getD i false = f (a.getD i false) (b.getD i false)
  | [], [], _, i => by simp [List.getD, hf]
  | x :: xs, y :: ys, h, 0 => by simp [List.getD]
  | x :: xs, y :: ys, h, i + 1 => by
    simpa [List.getD_cons_succ] using
      getD_zipWith f hf xs ys (by simpa using h) i
  | [], _ :: _, h, _ => by simp at h
  | _ :: _, [], h, _ => by simp at h

lemma Get_Or (a b : BitSet) (h : a.BitLength = b.BitLength) (i : Nat) :
    (a.Or b).Get i = (a.Get i || b.Get i) :=
  getD_zipWith Bool.or rfl a.bits b.bits h i

lemma Get_And (a b : BitSet) (h : a.BitLength = b.BitLength) (i : Nat) :
    (a.And b).Get i = (a.Get i && b.Get i) :=
  getD_zipWith Bool.and rfl a.bits b.bits h i

lemma Get_Xor (a b : BitSet) (h : a.BitLength = b.BitLength) (i : Nat) :
    (a.Xor b).Get i = (Bool.xor (a.Get i) (b.Get i)) :=
  getD_zipWith Bool.xor rfl a.bits b.bits h i

lemma BitLength_Or (a b : BitSet) : (a.Or b).BitLength = min a.BitLength b.BitLength := by
  simp [BitSet.Or, BitLength]

lemma BitLength_And (a b : BitSet) : (a.And b).BitLength = min a.BitLength b.BitLength := by
  simp [BitSet.And, BitLength]

lemma BitLength_Xor (a b : BitSet) : (a.Xor b).BitLength = min a.BitLength b.BitLength := by
  simp [BitSet.Xor, BitLength]

lemma BitLength_Set (b : BitSet) (p : Nat) (v : Bool) :
    (b.Set p v).BitLength = b.BitLength := by
  simp [BitSet.Set, BitLength]

lemma lt_of_Get_true {b : BitSet} {i : Nat} (h : b.Get i = true) : i < b.BitLength := by
  by_contra hlt
  rw [BitSet.Get, List.getD_eq_default] at h
  · exact Bool.false_ne_true h
  · exact Nat.le_of_not_lt hlt

lemma getD_set (l : List Bool) :
    ∀ (p i : Nat) (v : Bool),
      (l.set p v).getD i false =
        if p = i ∧ p < l.length then v else l.getD i false := by
  induction l with
  | nil => intro p i v; simp
  | cons x xs ih =>
    intro p i v
    cases p with
    | zero =>
      cases i with
      | zero => simp
      | succ j => simp [List.getD_cons_succ]
    | succ q =>
      cases i with
      | zero => simp
      | succ j =>
        simp only [List.set_cons_succ, List.getD_cons_succ, ih q j v,
          List.length_cons]
        by_cases hqj : q = j <;> simp [hqj]

lemma Get_Set (b : BitSet) (p i : Nat) (v : Bool) :
    (b.Set p v).Get i = if p = i ∧ p < b.BitLength then v else b.Get i :=
  getD_set b.bits p i v

lemma Cardinality_le_BitLength (b : BitSet) : b.Cardinality ≤ b.BitLength :=
  List.count_le_length true b.bits

lemma count_set_true (l : List Bool) : ∀ (p : Nat),
    l.count true ≤ (l.set p true).count true := by
  induction l with
  | nil => intro p; simp
  | cons x xs ih =>
    intro p
    cases p with
    | zero =>
      simp only [List.set_cons_zero, List.count_cons]
      cases x <;> simp
    | succ q =>
      simp only [List.set_cons_succ, List.count_cons]
      have := ih q
      omega

lemma Cardinality_Set_true (b : BitSet) (p : Nat) :
    b.Cardinality ≤ (b.Set p true).Cardinality :=
  count_set_true b.bits p

lemma count_or_add_count_and :
    ∀ (a b : List Bool), a.length = b.length →
      (List.zipWith Bool.or a b).count true + (List.zipWith Bool.and a b).count true =
        a.count true + b.count true
  | [], [], _ => by simp
  | x :: xs, y :: ys, h => by
    have ih := count_or_add_count_and xs ys (by simpa using h)
    simp only [List.zipWith_cons_cons, List.count_cons]
    cases x <;> cases y <;> simp <;> omega
  | [], _ :: _, h => by simp at h
  | _ :: _, [], h => by simp at h

lemma Cardinality_Or_add_And (a b : BitSet) (h : a.BitLength = b.BitLength) :
    (a.Or b).Cardinality + (a.And b).Cardinality = a.Cardinality + b.Cardinality :=
  count_or_add_count_and a.bits b.bits h

lemma count_le_count_or :
    ∀ (a b : List Bool), a.length = b.length →
      a.count true ≤ (List.zipWith Bool.or a b).count true
  | [], [], _ => by simp
  | x :: xs, y :: ys, h => by
    have ih := count_le_count_or xs ys (by simpa using h)
    simp only [List.zipWith_cons_cons, List.count_cons]
    cases x <;> cases y <;> simp <;> omega
  | [], _ :: _, h => by simp at h
  | _ :: _, [], h => by simp at h

lemma Cardinality_le_Or_left (a b : BitSet) (h : a.BitLength = b.BitLength) :
    a.Cardinality ≤ (a.Or b).Cardinality :=
  count_le_count_or a.bits b.bits h

lemma exists_Get_of_Cardinality_ne_zero {b : BitSet} (h : b.Cardinality ≠ 0) :
    ∃ i, b.Get i = true := by
  have hmem : true ∈ b.bits := by
    by_contra hmem
    exact h (List.count_eq_zero.mpr hmem)
  obtain ⟨i, hi, hget⟩ := List.mem_iff_getElem.mp hmem
  exact ⟨i, by simpa [BitSet.Get, List.getD_eq_getElem?_getD, List.getElem?_eq_getElem hi]
    using hget⟩

lemma eq_of_Cardinality_one {b : BitSet} (h : b.Cardinality = 1) {i j : Nat}
    (hi : b.Get i = true) (hj : b.Get j = true) : i = j := by
  have main : ∀ (l : List Bool) (i j : Nat), l.count true = 1 →
      l.getD i false = true → l.getD j false = true → i = j := by
    intro l
    induction l with
    | nil => intro i j h1 hi; simp [List.getD] at hi
    | cons x xs ih =>
      intro i j h1 hi hj
      have hcons : xs.count true + (if x = true then 1 else 0) = 1 := by
        simpa [List.count_cons] using h1
      cases i with
      | zero =>
        cases j with
        | zero => rfl
        | succ j' =>
          exfalso
          simp only [List.getD_cons_zero] at hi
          simp only [List.getD_cons_succ] at hj
          have : true ∈ xs := by
            have hlt : j' < xs.length := by
              by_contra hge
              rw [List.getD_eq_default] at hj
              · exact Bool.false_ne_true hj
              · exact Nat.le_of_not_lt hge
            rw [List.getD_eq_getElem?_getD, List.getElem?_eq_getElem hlt] at hj
            exact List.mem_iff_getElem.mpr ⟨j', hlt, by simpa using hj⟩
          have := List.count_pos_iff.mpr this
          simp [hi] at hcons
          omega
      | succ i' =>
        cases j with
        | zero =>
          exfalso
          simp only [List.getD_cons_zero] at hj
          simp only [List.getD_cons_succ] at hi
          have : true ∈ xs := by
            have hlt : i' < xs.length := by
              by_contra hge
              rw [List.getD_eq_default] at hi
              · exact Bool.false_ne_true hi
              · exact Nat.le_of_not_lt hge
            rw [List.getD_eq_getElem?_getD, List.getElem?_eq_getElem hlt] at hi
            exact List.mem_iff_getElem.mpr ⟨i', hlt, by simpa using hi⟩
          have := List.count_pos_iff.mpr this
          simp [hj] at hcons
          omega
        | succ j' =>
          simp only [List.getD_cons_succ] at hi hj
          have hxs : xs.count true = 1 := by
            cases x with
            | false => simpa using hcons
            | true =>
              exfalso
              have : true ∈ xs := by
                have hlt : i' < xs.length := by
                  by_contra hge
                  rw [List.getD_eq_default] at hi
                  · exact Bool.false_ne_true hi
                  · exact Nat.le_of_not_lt hge
                rw [List.getD_eq_getElem?_getD, List.getElem?_eq_getElem hlt] at hi
                exact List.mem_iff_getElem.mpr ⟨i', hlt, by simpa using hi⟩
              have := List.count_pos_iff.mpr this
              simp at hcons
              omega
          exact congrArg Nat.succ (ih i' j' hxs hi hj)
  exact main b.bits i j h hi hj

lemma mem_setPositions {b : BitSet} {i : Nat} :
    i ∈ b.setPositions ↔ b.Get i = true := by
  constructor
  · intro h
    exact (List.mem_filter.mp h).2
  · intro h
    exact List.mem_filter.mpr ⟨List.mem_range.mpr (lt_of_Get_true h), h⟩

lemma foldSet_BitLength : ∀ (ps : List Nat) (bs : BitSet),
    (ps.foldl (fun bs p => bs.Set p true) bs).BitLength = bs.BitLength := by
  intro ps
  induction ps with
  | nil => intro bs; rfl
  | cons p ps ih =>
    intro bs
    simpa [BitLength_Set] using ih (bs.Set p true)

lemma foldSet_card_ge : ∀ (ps : List Nat) (bs : BitSet),
    bs.Cardinality ≤ (ps.foldl (fun bs p => bs.Set p true) bs).Cardinality := by
  intro ps
  induction ps with
  | nil => intro bs; exact le_rfl
  | cons p ps ih =>
    intro bs
    exact le_trans (Cardinality_Set_true bs p) (ih (bs.Set p true))

lemma foldSet_Get : ∀ (ps : List Nat) (bs : BitSet) (i : Nat),
    (∀ p ∈ ps, p < bs.BitLength) →
    ((ps.foldl (fun bs p => bs.Set p true) bs).Get i = true ↔
      bs.Get i = true ∨ i ∈ ps) := by
  intro ps
  induction ps with
  | nil => intro bs i _; simp
  | cons p ps ih =>
    intro bs i hb
    have hb' : ∀ q ∈ ps, q < (bs.Set p true).BitLength := by
      intro q hq
      rw [BitLength_Set]
      exact hb q (List.mem_cons_of_mem p hq)
    rw [List.foldl_cons, ih (bs.Set p true) i hb', Get_Set]
    have hp : p < bs.BitLength := hb p (List.mem_cons_self p ps)
    by_cases hpi : p = i
    · subst hpi
      simp [hp]
    · simp only [hpi, false_and, if_false, List.mem_cons]
      constructor
      · rintro (h | h)
        · exact Or.inl h
        · exact Or.inr (Or.inr h)
      · rintro (h | h | h)
        · exact Or.inl h
        · exact absurd h.symm hpi
        · exact Or.inr h

end BitSet

namespace replaceStore

lemma foldIndiv_BitSet (r : replaceStore) (level : Nat) (iS : BitSet) :
    ∀ (best : MultiSignature),
      (foldIndiv r level best iS).BitSet =
        iS.setPositions.foldl (fun bs p => bs.Set p true) best.BitSet := by
  have main : ∀ (ps : List Nat) (best : MultiSignature),
      (ps.foldl
        (fun best pos =>
          { Signature := indivSigAt r level pos + best.Signature
            BitSet := best.BitSet.Set pos true })
        best).BitSet =
      ps.foldl (fun bs p => bs.Set p true) best.BitSet := by
    intro ps
    induction ps with
    | nil => intro best; rfl
    | cons p ps ih => intro best; simpa using ih _
  intro best
  exact main iS.setPositions best

lemma foldIndiv_BitLength (r : replaceStore) (level : Nat) (best : MultiSignature)
    (iS : BitSet) :
    (foldIndiv r level best iS).BitSet.BitLength = best.BitSet.BitLength := by
  rw [foldIndiv_BitSet, BitSet.foldSet_BitLength]

lemma foldIndiv_card_ge (r : replaceStore) (level : Nat) (best : MultiSignature)
    (iS : BitSet) :
    best.Cardinality ≤ (foldIndiv r level best iS).Cardinality := by
  unfold MultiSignature.Cardinality
  rw [foldIndiv_BitSet]
  exact BitSet.foldSet_card_ge _ _

lemma foldIndiv_Get (r : replaceStore) (level : Nat) (best : MultiSignature)
    (iS : BitSet) (hlen : iS.BitLength ≤ best.BitSet.BitLength) (i : Nat) :
    ((foldIndiv r level best iS).BitSet.Get i = true ↔
      best.BitSet.Get i = true ∨ iS.Get i = true) := by
  rw [foldIndiv_BitSet]
  have hps : ∀ p ∈ iS.setPositions, p < best.BitSet.BitLength := by
    intro p hp
    exact lt_of_lt_of_le (BitSet.lt_of_Get_true (BitSet.mem_setPositions.mp hp)) hlen
  rw [BitSet.foldSet_Get iS.setPositions best.BitSet i hps]
  rw [BitSet.mem_setPositions]

/-- Pointwise value of the `iS` bitset of `unsafeCheckMerge`: the
verified individuals missing from the running best. -/
lemma iS_Get (vl b : BitSet) (h : vl.BitLength = b.BitLength) (i : Nat) :
    ((vl.And b).Xor vl).Get i = (vl.Get i && !(b.Get i)) := by
  have h1 : (vl.And b).BitLength = vl.BitLength := by
    rw [BitSet.BitLength_And]; omega
  rw [BitSet.Get_Xor _ _ h1, BitSet.Get_And _ _ h]
  cases hv : vl.Get i <;> cases hb : b.Get i <;> rfl

lemma iS_BitLength (vl b : BitSet) (h : vl.BitLength = b.BitLength) :
    ((vl.And b).Xor vl).BitLength = vl.BitLength := by
  rw [BitSet.BitLength_Xor, BitSet.BitLength_And]
  omega

/-- Case analysis of `unsafeCheckMerge` under the length invariant: the
no-best case returns the incoming signature; the keep case discards a
strictly smaller overlapping signature (whose bits, for an individual,
are already in the best); the store case returns a best that is at least
as large as the previous one, covers every verified individual, and has
the same length. -/
lemma unsafeCheckMerge_cases (T : Nat) (r1 : replaceStore) (level : Nat)
    (ms : MultiSignature)
    (hvl : (r1.indivSigsVerified level).BitLength = T)
    (hms : ms.BitSet.BitLength = T)
    (hm : ∀ b, r1.m level = some b → b.BitSet.BitLength = T) :
    (r1.m level = none ∧ unsafeCheckMerge r1 level ms = (some ms, true)) ∨
    (∃ ms2, r1.m level = some ms2 ∧
      unsafeCheckMerge r1 level ms = (none, false) ∧
      ms.Cardinality < ms2.Cardinality ∧
      (∀ i, ms.Cardinality = 1 → ms.BitSet.Get i = true → ms2.BitSet.Get i = true)) ∨
    (∃ ms2 best', r1.m level = some ms2 ∧
      unsafeCheckMerge r1 level ms = (some best', true) ∧
      best'.BitSet.BitLength = T ∧
      ms2.Cardinality ≤ best'.Cardinality ∧
      (∀ i, (r1.indivSigsVerified level).Get i = true → best'.BitSet.Get i = true)) := by
  cases hm0 : r1.m level with
  | none =>
    left
    exact ⟨rfl, by simp [unsafeCheckMerge, hm0]⟩
  | some ms2 =>
    right
    have hms2 : ms2.BitSet.BitLength = T := hm ms2 hm0
    have hlen12 : ms.BitSet.BitLength = ms2.BitSet.BitLength := by omega
    by_cases hcond :
        (ms.BitSet.Or ms2.BitSet).Cardinality = ms2.Cardinality + ms.Cardinality
    · -- disjoint merge: fold the individuals into the union
      right
      set best0 : MultiSignature :=
        { Signature := 0 + ms.Signature + ms2.Signature
          BitSet := ms.BitSet.Or ms2.BitSet } with hbest0
      have hlenb0 : best0.BitSet.BitLength = T := by
        simp only [hbest0, BitSet.BitLength_Or]
        omega
      have hlenvb : (r1.indivSigsVerified level).BitLength = best0.BitSet.BitLength := by
        omega
      set iS : BitSet :=
        ((r1.indivSigsVerified level).And best0.BitSet).Xor
          (r1.indivSigsVerified level) with hiS
      have hiSlen : iS.BitLength ≤ best0.BitSet.BitLength := by
        rw [hiS, iS_BitLength _ _ hlenvb]
        omega
      refine ⟨ms2, foldIndiv r1 level best0 iS, rfl, ?_, ?_, ?_, ?_⟩
      · simp only [unsafeCheckMerge, hm0, hcond, if_true]
      · rw [foldIndiv_BitLength]
        exact hlenb0
      · calc ms2.Cardinality ≤ best0.Cardinality := by
              unfold MultiSignature.Cardinality at hcond ⊢
              simp only [hbest0]
              omega
          _ ≤ (foldIndiv r1 level best0 iS).Cardinality := foldIndiv_card_ge _ _ _ _
      · intro i hi
        rw [foldIndiv_Get r1 level best0 iS hiSlen i]
        by_cases hb : best0.BitSet.Get i = true
        · exact Or.inl hb
        · refine Or.inr ?_
          rw [hiS, iS_Get _ _ hlenvb i, hi]
          simp [Bool.eq_false_iff.mpr, Bool.not_eq_true] at hb ⊢
          exact hb
    · by_cases hlt : ms.Cardinality < ms2.Cardinality
      · -- overlap with a smaller signature: discard
        left
        refine ⟨ms2, rfl, ?_, hlt, ?_⟩
        · simp only [unsafeCheckMerge, hm0, hcond, if_false, hlt, if_true]
        · intro i hone hi
          -- the bitsets intersect, and an individual has a single bit
          have hsum := BitSet.Cardinality_Or_add_And ms.BitSet ms2.BitSet hlen12
          have hor := BitSet.Cardinality_le_Or_left ms.BitSet ms2.BitSet hlen12
          have hand : (ms.BitSet.And ms2.BitSet).Cardinality ≠ 0 := by
            intro h0
            exact hcond (by
              unfold MultiSignature.Cardinality
              omega)
          obtain ⟨j, hj⟩ := BitSet.exists_Get_of_Cardinality_ne_zero hand
          rw [BitSet.Get_And _ _ hlen12, Bool.and_eq_true] at hj
          have hmsj := hj.1
          have hms2j := hj.2
          have : i = j := BitSet.eq_of_Cardinality_one hone hi hmsj
          rw [this]
          exact hms2j
      · -- overlap with an equal-or-larger signature: replace, fold individuals
        right
        have hlenvb : (r1.indivSigsVerified level).BitLength = ms.BitSet.BitLength := by
          omega
        set iS : BitSet :=
          ((r1.indivSigsVerified level).And ms.BitSet).Xor
            (r1.indivSigsVerified level) with hiS
        have hiSlen : iS.BitLength ≤ ms.BitSet.BitLength := by
          rw [hiS, iS_BitLength _ _ hlenvb]
          omega
        refine ⟨ms2, foldIndiv r1 level ms iS, rfl, ?_, ?_, ?_, ?_⟩
        · simp only [unsafeCheckMerge, hm0, hcond, if_false, hlt, if_true]
        · rw [foldIndiv_BitLength]
          exact hms
        · calc ms2.Cardinality ≤ ms.Cardinality := Nat.le_of_not_lt hlt
            _ ≤ (foldIndiv r1 level ms iS).Cardinality := foldIndiv_card_ge _ _ _ _
        · intro i hi
          rw [foldIndiv_Get r1 level ms iS hiSlen i]
          by_cases hb : ms.BitSet.Get i = true
          · exact Or.inl hb
          · refine Or.inr ?_
            rw [hiS, iS_Get _ _ hlenvb i, hi]
            simp [Bool.not_eq_true] at hb ⊢
            exact hb

end replaceStore

/-- Length well-formedness of a store state relative to a per-level
candidate-set size function `T`: the per-level verified-individual
bitset and any stored best have bit length `T level` (the spec
store-state invariants). -/
def WFall (T : Nat → Nat) (s : replaceStore) : Prop :=
  ∀ l, (s.indivSigsVerified l).BitLength = T l ∧
    ∀ b, s.m l = some b → b.BitSet.BitLength = T l

/-- The individual-preservation invariant: every verified individual bit
is present in the current best of its level (which in particular
exists). -/
def SUB (s : replaceStore) : Prop :=
  ∀ l i, (s.indivSigsVerified l).Get i = true →
    ∃ b, s.m l = some b ∧ b.BitSet.Get i = true

/-- The cardinality of the best at a level, 0 when absent. -/
def bestCard (s : replaceStore) (l : Nat) : Nat :=
  match s.m l with
  | some b => b.Cardinality
  | none => 0

namespace replaceStore

lemma recordIndiv_m (r : replaceStore) (level : Nat) (ms : MultiSignature) :
    (recordIndiv r level ms).m = r.m := by
  unfold recordIndiv
  split <;> rfl

lemma recordIndiv_vl_other (r : replaceStore) (level : Nat) (ms : MultiSignature)
    (l : Nat) (h : l ≠ level) :
    (recordIndiv r level ms).indivSigsVerified l = r.indivSigsVerified l := by
  unfold recordIndiv
  split
  · simp [h]
  · rfl

lemma recordIndiv_vl_self (r : replaceStore) (level : Nat) (ms : MultiSignature)
    (h : ms.Cardinality = 1) :
    (recordIndiv r level ms).indivSigsVerified level =
      (r.indivSigsVerified level).Or ms.BitSet := by
  simp [recordIndiv, h]

lemma recordIndiv_vl_self_not (r : replaceStore) (level : Nat) (ms : MultiSignature)
    (h : ¬ ms.Cardinality = 1) :
    (recordIndiv r level ms).indivSigsVerified level = r.indivSigsVerified level := by
  unfold recordIndiv
  rw [if_neg h]

lemma store_m_self (r : replaceStore) (level : Nat) (ms : MultiSignature) :
    (r.store level ms).m level = some ms := by
  simp [store]

lemma store_m_other (r : replaceStore) (level : Nat) (ms : MultiSignature)
    (l : Nat) (h : l ≠ level) : (r.store level ms).m l = r.m l := by
  simp [store, h]

lemma store_vl (r : replaceStore) (level : Nat) (ms : MultiSignature) :
    (r.store level ms).indivSigsVerified = r.indivSigsVerified := rfl

/-- Master step lemma for `Store`: one call preserves the length
invariant, leaves other levels untouched, only grows the verified
individual bitsets, records an individual argument, never decreases the
best's cardinality, and preserves the individual-preservation
invariant. -/
lemma Store_post (T : Nat → Nat) (s : replaceStore) (level : Nat)
    (ms : MultiSignature) (hWF : WFall T s)
    (hlen : ms.BitSet.BitLength = T level) :
    (∀ l, l ≠ level → ((s.Store level ms).1.m l = s.m l ∧
        (s.Store level ms).1.indivSigsVerified l = s.indivSigsVerified l)) ∧
    WFall T (s.Store level ms).1 ∧
    (∀ l i, (s.indivSigsVerified l).Get i = true →
      ((s.Store level ms).1.indivSigsVerified l).Get i = true) ∧
    (ms.Cardinality = 1 → ∀ i, ms.BitSet.Get i = true →
      ((s.Store level ms).1.indivSigsVerified level).Get i = true) ∧
    (∀ b, s.m level = some b → ∃ b', (s.Store level ms).1.m level = some b' ∧
      b.Cardinality ≤ b'.Cardinality) ∧
    (SUB s → SUB (s.Store level ms).1) := by
  have hvlS : (s.indivSigsVerified level).BitLength = T level := (hWF level).1
  set r1 := recordIndiv s level ms with hr1
  -- facts about the individual-recording step
  have hr1m : r1.m = s.m := recordIndiv_m s level ms
  have hvl1len : (r1.indivSigsVerified level).BitLength = T level := by
    by_cases hone : ms.Cardinality = 1
    · rw [hr1, recordIndiv_vl_self s level ms hone, BitSet.BitLength_Or]
      omega
    · rw [hr1, recordIndiv_vl_self_not s level ms hone]
      exact hvlS
  have hvlmono : ∀ l i, (s.indivSigsVerified l).Get i = true →
      (r1.indivSigsVerified l).Get i = true := by
    intro l i hi
    by_cases hl : l = level
    · subst hl
      by_cases hone : ms.Cardinality = 1
      · rw [hr1, recordIndiv_vl_self s l ms hone,
          BitSet.Get_Or _ _ (by omega), hi]
        rfl
      · rw [hr1, recordIndiv_vl_self_not s l ms hone]
        exact hi
    · rw [hr1, recordIndiv_vl_other s level ms l hl]
      exact hi
  have hvlrec : ms.Cardinality = 1 → ∀ i, ms.BitSet.Get i = true →
      (r1.indivSigsVerified level).Get i = true := by
    intro hone i hi
    rw [hr1, recordIndiv_vl_self s level ms hone,
      BitSet.Get_Or _ _ (by omega), hi]
    simp
  have hvl1back : ∀ i, (r1.indivSigsVerified level).Get i = true →
      ((s.indivSigsVerified level).Get i = true ∨
        (ms.Cardinality = 1 ∧ ms.BitSet.Get i = true)) := by
    intro i hi
    by_cases hone : ms.Cardinality = 1
    · rw [hr1, recordIndiv_vl_self s level ms hone,
        BitSet.Get_Or _ _ (by omega), Bool.or_eq_true] at hi
      rcases hi with h | h
      · exact Or.inl h
      · exact Or.inr ⟨hone, h⟩
    · rw [hr1, recordIndiv_vl_self_not s level ms hone] at hi
      exact Or.inl hi
  have hvl1other : ∀ l, l ≠ level →
      r1.indivSigsVerified l = s.indivSigsVerified l := by
    intro l hl
    rw [hr1, recordIndiv_vl_other s level ms l hl]
  -- case analysis on the merge
  have hcases := unsafeCheckMerge_cases (T level) r1 level ms hvl1len hlen
    (by rw [hr1m]; exact fun b hb => (hWF level).2 b hb)
  rcases hcases with ⟨hm0, heq⟩ | ⟨ms2, hm0, heq, hlt, hindiv⟩ |
      ⟨ms2, best', hm0, heq, hblen, hbcard, hbcover⟩
  · -- no previous best: the incoming signature is stored
    have hstore : (s.Store level ms).1 = r1.store level ms := by
      simp only [Store, ← hr1, heq]
    have hsm0 : s.m level = none := hr1m ▸ hm0
    refine ⟨?_, ?_, ?_, ?_, ?_, ?_⟩
    · intro l hl
      rw [hstore, store_m_other _ _ _ _ hl, hr1m, store_vl, hvl1other l hl]
      exact ⟨rfl, rfl⟩
    · intro l
      by_cases hl : l = level
      · subst hl
        rw [hstore]
        refine ⟨hvl1len, ?_⟩
        intro b hb
        rw [store_m_self] at hb
        cases hb
        exact hlen
      · rw [hstore, store_m_other _ _ _ _ hl, hr1m, store_vl, hvl1other l hl]
        exact hWF l
    · intro l i hi
      rw [hstore, store_vl]
      exact hvlmono l i hi
    · intro hone i hi
      rw [hstore, store_vl]
      exact hvlrec hone i hi
    · intro b hb
      rw [hsm0] at hb
      cases hb
    · intro hSUB l i hi
      rw [hstore, store_vl] at hi
      by_cases hl : l = level
      · subst hl
        rcases hvl1back i hi with h | ⟨hone, h⟩
        · obtain ⟨b, hb, _⟩ := hSUB l i h
          rw [hsm0] at hb
          cases hb
        · exact ⟨ms, by rw [hstore, store_m_self], h⟩
      · rw [hvl1other l hl] at hi
        obtain ⟨b, hb, hbit⟩ := hSUB l i hi
        exact ⟨b, by rw [hstore, store_m_other _ _ _ _ hl, hr1m]; exact hb, hbit⟩
  · -- discard: state is only changed by the individual recording
    have hstore : (s.Store level ms).1 = r1 := by
      simp only [Store, ← hr1, heq]
    rw [hr1m] at hm0
    refine ⟨?_, ?_, ?_, ?_, ?_, ?_⟩
    · intro l hl
      rw [hstore, hr1m, hvl1other l hl]
      exact ⟨rfl, rfl⟩
    · intro l
      by_cases hl : l = level
      · subst hl
        rw [hstore]
        refine ⟨hvl1len, ?_⟩
        intro b hb
        rw [hr1m] at hb
        exact (hWF l).2 b hb
      · rw [hstore, hr1m, hvl1other l hl]
        exact hWF l
    · intro l i hi
      rw [hstore]
      exact hvlmono l i hi
    · intro hone i hi
      rw [hstore]
      exact hvlrec hone i hi
    · intro b hb
      rw [hm0] at hb
      cases hb
      exact ⟨ms2, by rw [hstore, hr1m, hm0], le_rfl⟩
    · intro hSUB l i hi
      rw [hstore] at hi
      by_cases hl : l = level
      · subst hl
        refine ⟨ms2, by rw [hstore, hr1m, hm0], ?_⟩
        rcases hvl1back i hi with h | ⟨hone, h⟩
        · obtain ⟨b, hb, hbit⟩ := hSUB l i h
          rw [hm0] at hb
          cases hb
          exact hbit
        · exact hindiv i hone h
      · rw [hvl1other l hl] at hi
        obtain ⟨b, hb, hbit⟩ := hSUB l i hi
        exact ⟨b, by rw [hstore, hr1m]; exact hb, hbit⟩
  · -- store the merged / replacing best
    have hstore : (s.Store level ms).1 = r1.store level best' := by
      simp only [Store, ← hr1, heq]
    rw [hr1m] at hm0
    refine ⟨?_, ?_, ?_, ?_, ?_, ?_⟩
    · intro l hl
      rw [hstore, store_m_other _ _ _ _ hl, hr1m, store_vl, hvl1other l hl]
      exact ⟨rfl, rfl⟩
    · intro l
      by_cases hl : l = level
      · subst hl
        rw [hstore]
        refine ⟨hvl1len, ?_⟩
        intro b hb
        rw [store_m_self] at hb
        cases hb
        exact hblen
      · rw [hstore, store_m_other _ _ _ _ hl, hr1m, store_vl, hvl1other l hl]
        exact hWF l
    · intro l i hi
      rw [hstore, store_vl]
      exact hvlmono l i hi
    · intro hone i hi
      rw [hstore, store_vl]
      exact hvlrec hone i hi
    · intro b hb
      rw [hm0] at hb
      cases hb
      exact ⟨best', by rw [hstore, store_m_self], hbcard⟩
    · intro hSUB l i hi
      rw [hstore, store_vl] at hi
      by_cases hl : l = level
      · subst hl
        exact ⟨best', by rw [hstore, store_m_self], hbcover i hi⟩
      · rw [hvl1other l hl] at hi
        obtain ⟨b, hb, hbit⟩ := hSUB l i hi
        exact ⟨b, by rw [hstore, store_m_other _ _ _ _ hl, hr1m]; exact hb, hbit⟩

end replaceStore

lemma bestCard_le (T : Nat → Nat) (s : replaceStore) (hWF : WFall T s) (l : Nat) :
    bestCard s l ≤ T l := by
  unfold bestCard
  cases hm : s.m l with
  | none => exact Nat.zero_le _
  | some b =>
    calc b.Cardinality ≤ b.BitSet.BitLength := BitSet.Cardinality_le_BitLength _
      _ = T l := (hWF l).2 b hm

lemma Store_bestCard_mono (T : Nat → Nat) (s : replaceStore) (level : Nat)
    (ms : MultiSignature) (hWF : WFall T s)
    (hlen : ms.BitSet.BitLength = T level) :
    bestCard s level ≤ bestCard (s.Store level ms).1 level := by
  obtain ⟨-, -, -, -, h5, -⟩ := replaceStore.Store_post T s level ms hWF hlen
  unfold bestCard
  cases hm : s.m level with
  | none => exact Nat.zero_le _
  | some b =>
    obtain ⟨b', hb', hle⟩ := h5 b hm
    rw [hb']
    exact hle

lemma applyStoresAt_post (T : Nat → Nat) (level : Nat) :
    ∀ (l : List MultiSignature) (s : replaceStore), WFall T s →
      (∀ ms ∈ l, ms.BitSet.BitLength = T level) →
      WFall T (applyStoresAt s level l) ∧
        bestCard s level ≤ bestCard (applyStoresAt s level l) level := by
  intro l
  induction l with
  | nil =>
    intro s hWF _
    exact ⟨hWF, le_rfl⟩
  | cons ms l ih =>
    intro s hWF hl
    have hms := hl ms (List.mem_cons_self ms l)
    have hpost := replaceStore.Store_post T s level ms hWF hms
    have hstep : applyStoresAt s level (ms :: l) =
        applyStoresAt (s.Store level ms).1 level l := rfl
    have hmono := Store_bestCard_mono T s level ms hWF hms
    obtain ⟨hWF', hcard⟩ :=
      ih (s.Store level ms).1 hpost.2.1 (fun m hm => hl m (List.mem_cons_of_mem _ hm))
    rw [hstep]
    exact ⟨hWF', le_trans hmono hcard⟩

lemma applyStores_post (T : Nat → Nat) :
    ∀ (l : List (Nat × MultiSignature)) (s : replaceStore), WFall T s →
      (∀ p ∈ l, p.2.BitSet.BitLength = T p.1) →
      WFall T (applyStores s l) ∧
        (SUB s → SUB (applyStores s l)) ∧
        (∀ lv i, (s.indivSigsVerified lv).Get i = true →
          ((applyStores s l).indivSigsVerified lv).Get i = true) := by
  intro l
  induction l with
  | nil =>
    intro s hWF _
    exact ⟨hWF, fun h => h, fun _ _ h => h⟩
  | cons p l ih =>
    intro s hWF hl
    have hp := hl p (List.mem_cons_self p l)
    have hpost := replaceStore.Store_post T s p.1 p.2 hWF hp
    have hstep : applyStores s (p :: l) = applyStores (applyStore s p) l := rfl
    obtain ⟨hWF', hSUB', hmono'⟩ :=
      ih (applyStore s p) hpost.2.1 (fun q hq => hl q (List.mem_cons_of_mem _ hq))
    rw [hstep]
    refine ⟨hWF', fun hS => hSUB' (hpost.2.2.2.2.2 hS), ?_⟩
    intro lv i hi
    exact hmono' lv i (hpost.2.2.1 lv i hi)

lemma Best_fst (r : replaceStore) (level : Nat) : (r.Best level).1 = r.m level := by
  unfold replaceStore.Best
  cases r.m level <;> rfl

/-- C1.  Individual preservation: starting from any store state that
satisfies the length invariant and the individual-preservation invariant
(in particular the fresh store), run any sequence of `Store` calls whose
bitset lengths match their level's candidate-set size.  If one of the
calls stores an individual multi-signature (cardinality 1) with bit `i`
set at some level, then after the whole sequence (i) every verified
individual at every level is folded into that level's best (`SUB`), and
(ii) any `Best` at that level returns a multi-signature with bit `i`
set. -/
theorem individual_preservation (T : Nat → Nat) (s : replaceStore)
    (hWF : WFall T s) (hSUB : SUB s)
    (pre post : List (Nat × MultiSignature)) (level : Nat)
    (msI : MultiSignature) (i : Nat)
    (hlens : ∀ p ∈ pre ++ (level, msI) :: post, p.2.BitSet.BitLength = T p.1)
    (hone : msI.Cardinality = 1) (hbit : msI.BitSet.Get i = true) :
    SUB (applyStores s (pre ++ (level, msI) :: post)) ∧
    ∀ b, ((applyStores s (pre ++ (level, msI) :: post)).Best level).1 = some b →
      b.BitSet.Get i = true := by
  have hdecomp : applyStores s (pre ++ (level, msI) :: post) =
      applyStores (applyStore (applyStores s pre) (level, msI)) post := by
    unfold applyStores
    rw [List.foldl_append, List.foldl_cons]
  have hprelens : ∀ p ∈ pre, p.2.BitSet.BitLength = T p.1 := by
    intro p hp
    exact hlens p (List.mem_append_left _ hp)
  have hmidlen : msI.BitSet.BitLength = T level := by
    have := hlens (level, msI) (List.mem_append_right _ (List.mem_cons_self _ _))
    exact this
  have hpostlens : ∀ p ∈ post, p.2.BitSet.BitLength = T p.1 := by
    intro p hp
    exact hlens p (List.mem_append_right _ (List.mem_cons_of_mem _ hp))
  obtain ⟨hWF1, hSUB1fn, -⟩ := applyStores_post T pre s hWF hprelens
  have hSUB1 := hSUB1fn hSUB
  have hpost1 := replaceStore.Store_post T (applyStores s pre) level msI hWF1 hmidlen
  have hrec := hpost1.2.2.2.1 hone i hbit
  have hWF2 := hpost1.2.1
  have hSUB2 := hpost1.2.2.2.2.2 hSUB1
  obtain ⟨hWF3, hSUB3fn, hmono3⟩ :=
    applyStores_post T post (applyStore (applyStores s pre) (level, msI)) hWF2 hpostlens
  have hSUB3 := hSUB3fn hSUB2
  have hvl3 := hmono3 level i hrec
  rw [hdecomp]
  refine ⟨hSUB3, ?_⟩
  intro b hb
  rw [Best_fst] at hb
  obtain ⟨b0, hb0, hbit0⟩ := hSUB3 level i hvl3
  rw [hb0] at hb
  cases hb
  exact hbit0

/-- C6.  Store monotonicity: at any level, over any sequence of `Store`
calls whose arguments have bitset length equal to the candidate-set size
at that level, the cardinality of the best is non-decreasing along the
sequence (any earlier prefix has a best at most as large as any later
prefix) and never exceeds `Size(level)`. -/
theorem store_monotonicity (c : binomialPartitioner) (T : Nat → Nat) (level : Nat)
    (hsize : c.Size level = .ok (T level))
    (s : replaceStore) (hWF : WFall T s)
    (mss : List MultiSignature)
    (hlens : ∀ ms ∈ mss, ms.BitSet.BitLength = T level)
    (i j : Nat) (hij : i ≤ j) :
    bestCard (applyStoresAt s level (mss.take i)) level ≤
      bestCard (applyStoresAt s level (mss.take j)) level ∧
    bestCard (applyStoresAt s level (mss.take j)) level ≤ T level := by
  have htake : mss.take j = mss.take i ++ (mss.take j).drop i := by
    conv_lhs => rw [← List.take_append_drop i (mss.take j)]
    rw [List.take_take, Nat.min_eq_left hij]
  have hitake : ∀ ms ∈ mss.take i, ms.BitSet.BitLength = T level := by
    intro ms hm
    exact hlens ms ((List.take_sublist i mss).subset hm)
  have hjtake : ∀ ms ∈ mss.take j, ms.BitSet.BitLength = T level := by
    intro ms hm
    exact hlens ms ((List.take_sublist j mss).subset hm)
  have hmid : ∀ ms ∈ (mss.take j).drop i, ms.BitSet.BitLength = T level := by
    intro ms hm
    exact hjtake ms ((List.drop_sublist i (mss.take j)).subset hm)
  obtain ⟨hWFi, -⟩ := applyStoresAt_post T level (mss.take i) s hWF hitake
  obtain ⟨hWFj, -⟩ := applyStoresAt_post T level (mss.take j) s hWF hjtake
  obtain ⟨-, hmono⟩ :=
    applyStoresAt_post T level ((mss.take j).drop i)
      (applyStoresAt s level (mss.take i)) hWFi hmid
  constructor
  · have : applyStoresAt s level (mss.take j) =
        applyStoresAt (applyStoresAt s level (mss.take i)) level
          ((mss.take j).drop i) := by
      conv_lhs => rw [htake]
      unfold applyStoresAt
      rw [List.foldl_append]
    rw [this]
    exact hmono
  · exact bestCard_le T _ hWFj level

/-- C4.  The evaluation score, by case: (i) with a best of full
candidate-set cardinality the score is 0; (ii) past the three zero-score
guards, when the added and existing contributions sum to the candidate
set size the score is `1000000 - level` (the positivity of `added`
follows from the guards when the candidate set is non-empty and bests
respect the candidate-set size); (iii) past the guards, with positive
`added` not completing the level, the score is
`30000 - level*100 + added`. -/
theorem evaluate_score_cases (r : replaceStore) (sp : incomingSig) :
    (∀ m2, r.m sp.level = some m2 → (m2.Cardinality : Int) = (r.part sp.level : Int) →
      replaceStore.unsafeEvaluate r sp = 0) ∧
    (replaceStore.evalSaturated r sp = false →
      replaceStore.evalAlreadyIndiv r sp = false →
      replaceStore.evalSuperseded r sp = false →
      0 < r.part sp.level →
      (∀ m2, r.m sp.level = some m2 → m2.Cardinality ≤ r.part sp.level) →
      replaceStore.evalAdded r sp + replaceStore.evalExisting r sp = (r.part sp.level : Int) →
      replaceStore.unsafeEvaluate r sp = 1000000 - sp.level) ∧
    (replaceStore.evalSaturated r sp = false →
      replaceStore.evalAlreadyIndiv r sp = false →
      replaceStore.evalSuperseded r sp = false →
      0 < replaceStore.evalAdded r sp →
      replaceStore.evalAdded r sp + replaceStore.evalExisting r sp ≠ (r.part sp.level : Int) →
      replaceStore.unsafeEvaluate r sp = 30000 - (sp.level : Int) * 100 +
        replaceStore.evalAdded r sp) := by
  refine ⟨?_, ?_, ?_⟩
  · intro m2 hm2 hcard
    have hsat : replaceStore.evalSaturated r sp = true := by
      unfold replaceStore.evalSaturated
      rw [hm2]
      simp [hcard]
    unfold replaceStore.unsafeEvaluate
    rw [if_pos hsat]
  · intro hsat hind hsup hT hle hsum
    have hadded : 0 < replaceStore.evalAdded r sp := by
      unfold replaceStore.evalAdded replaceStore.evalExisting at hsum
      unfold replaceStore.evalAdded
      have hw : 0 ≤ replaceStore.withIndivCard r sp := Int.natCast_nonneg _
      cases hm : r.m sp.level with
      | none =>
        rw [hm] at hsum
        dsimp only at hsum ⊢
        omega
      | some m2 =>
        have hcard := hle m2 hm
        have hne : ¬ ((r.part sp.level : Int) = (m2.Cardinality : Int)) := by
          unfold replaceStore.evalSaturated at hsat
          rw [hm] at hsat
          exact beq_eq_false_iff_ne.mp hsat
        rw [hm] at hsum
        dsimp only at hsum ⊢
        by_cases hint : sp.ms.BitSet.IntersectionCardinality m2.BitSet ≠ 0
        · rw [if_pos hint] at hsum ⊢
          omega
        · rw [if_neg hint] at hsum ⊢
          have : (m2.Cardinality : Int) ≤ (r.part sp.level : Int) := by
            exact_mod_cast hcard
          omega
    unfold replaceStore.unsafeEvaluate
    rw [hsat, hind, hsup]
    simp only [Bool.false_eq_true, if_false]
    rw [if_neg (by omega), if_pos hsum]
  · intro hsat hind hsup hadded hsum
    unfold replaceStore.unsafeEvaluate
    rw [hsat, hind, hsup]
    simp only [Bool.false_eq_true, if_false]
    rw [if_neg (by omega), if_neg hsum]

/-- C5.  For every incoming signature with a byte-valued level and every
store state whatsoever, the evaluation score is non-negative, so
`Evaluate` never takes the negative-score panic branch and returns the
score. -/
theorem evaluate_nonneg (r : replaceStore) (sp : incomingSig) (h : sp.level < 256) :
    0 ≤ replaceStore.unsafeEvaluate r sp ∧
    replaceStore.Evaluate r sp = .ok (replaceStore.unsafeEvaluate r sp) := by
  have hl : (sp.level : Int) < 256 := by exact_mod_cast h
  have h0 : 0 ≤ replaceStore.unsafeEvaluate r sp := by
    unfold replaceStore.unsafeEvaluate
    split_ifs <;> omega
  refine ⟨h0, ?_⟩
  unfold replaceStore.Evaluate
  rw [if_neg (by omega)]

/-- The duplicate-store aggregate used to evaluate the `Store` return
flag. -/
def msDup : MultiSignature := ⟨{7}, ⟨[true, true]⟩⟩

/-- C2 (against the claim).  Storing the same aggregate a second time:
the Go `Store` returns `n, true` unconditionally (store.go line 90), so
the second call reports accepted = true while the stored best is
unchanged both before and after - contradicting the `signatureStore`
interface documentation ("returns true if the entry for this level has
been updated"), the spec merge rule and scenario S4, and the repo's own
`TestStoreReplace`, which expects the second call to return false. -/
theorem store_duplicate_returns_true :
    ((((replaceStore.newReplaceStore (fun _ => 2)).Store 1 msDup).1.Store 1 msDup).2.2 = true ∧
      (((replaceStore.newReplaceStore (fun _ => 2)).Store 1 msDup).1.Store 1 msDup).2.1 =
        some msDup) ∧
    ((((replaceStore.newReplaceStore (fun _ => 2)).Store 1 msDup).1.Store 1 msDup).1.m 1 =
        some msDup ∧
      ((replaceStore.newReplaceStore (fun _ => 2)).Store 1 msDup).1.m 1 = some msDup) := by
  decide

/-- C9 (against the claim).  `Handel.Stop` closes `h.out` without
checking `h.done` (handel.go line 541): the first call from the initial
state succeeds, and a second call panics with "close of closed channel"
instead of being an idempotent no-op. -/
theorem stop_twice_panics :
    handelStop initHandelStopState =
      .ok ⟨true, ⟨true, true, true⟩, true, true⟩ ∧
    handelStop ⟨true, ⟨true, true, true⟩, true, true⟩ =
      .error "close of closed channel" :=
  ⟨rfl, rfl⟩

/-- Unfolding of the `readTodos` scan loop on a pair that is neither
the death pill nor nil. -/
lemma readLoop_cons (eval : sigPair → Int) (orig : List sigPair) (p : sigPair)
    (rest newTodos : List sigPair) (best : Option sigPair) (bestMark : Int)
    (h1 : p ≠ deathPillPair) (h2 : p.ms ≠ none) :
    readLoop eval orig (p :: rest) newTodos best bestMark =
      if 0 < eval p then
        if eval p ≤ bestMark then
          readLoop eval orig rest (newTodos ++ [p]) best bestMark
        else readLoop eval orig rest (newTodos ++ best.toList) (some p) (eval p)
      else readLoop eval orig rest newTodos best bestMark := by
  conv_lhs => rw [readLoop]
  rw [if_neg h1, if_neg h2]

lemma perm_move_mid (xs bt rf : List sigPair) (p : sigPair) :
    (((xs ++ [p]) ++ bt) ++ rf).Perm ((xs ++ bt) ++ (p :: rf)) := by
  rw [List.perm_iff_count]
  intro a
  simp only [List.count_append, List.count_cons, List.count_nil]
  omega

lemma perm_move_last (ys rf : List sigPair) (p : sigPair) :
    ((ys ++ [p]) ++ rf).Perm (ys ++ (p :: rf)) := by
  rw [List.perm_iff_count]
  intro a
  simp only [List.count_append, List.count_cons, List.count_nil]
  omega

/-- Invariant analysis of the `readTodos` scan loop, generalised over
the accumulators: on a pill-free, nil-free remainder the loop never
reports done; when no positive-scoring item exists it keeps the
accumulator; and the selected best is positive-scoring, maximal, drawn
from the remainder or the accumulator, and together with the new pending
list forms a permutation of the positive-scoring items. -/
lemma readLoop_spec (eval : sigPair → Int) (orig : List sigPair) :
    ∀ (l newTodos : List sigPair) (best : Option sigPair) (bestMark : Int),
      (∀ p ∈ l, p.ms ≠ none) →
      (match best with
       | none => bestMark = 0 ∧ newTodos = []
       | some b => eval b = bestMark ∧ 0 < bestMark) →
      (∀ p ∈ newTodos, 0 < eval p ∧ eval p ≤ bestMark) →
      (readLoop eval orig l newTodos best bestMark).done = false ∧
      ((readLoop eval orig l newTodos best bestMark).best = none →
        best = none ∧ ∀ p ∈ l, eval p ≤ 0) ∧
      (∀ b, (readLoop eval orig l newTodos best bestMark).best = some b →
        0 < eval b ∧ bestMark ≤ eval b ∧ (∀ p ∈ l, eval p ≤ eval b) ∧
        (b ∈ l ∨ best = some b) ∧
        List.Perm ((readLoop eval orig l newTodos best bestMark).todos ++ [b])
          (newTodos ++ best.toList ++
            l.filter (fun p => decide (0 < eval p)))) := by
  intro l
  induction l with
  | nil =>
    intro newTodos best bestMark _ hbest hacc
    refine ⟨rfl, ?_, ?_⟩
    · intro hnone
      cases best with
      | none => exact ⟨rfl, fun p hp => absurd hp (List.not_mem_nil p)⟩
      | some b => cases hnone
    · intro b hb
      cases best with
      | none => cases hb
      | some b0 =>
        cases hb
        obtain ⟨hev, hpos⟩ := hbest
        refine ⟨by omega, by omega, fun p hp => absurd hp (List.not_mem_nil p),
          Or.inr rfl, ?_⟩
        simp only [readLoop, List.filter_nil, List.append_nil, Option.toList_some]
        exact List.Perm.refl _
  | cons p rest ih =>
    intro newTodos best bestMark hnil hbest hacc
    have hpms : p.ms ≠ none := hnil p (List.mem_cons_self p rest)
    have hnotpill : p ≠ deathPillPair := by
      intro hp
      exact hpms (by rw [hp]; rfl)
    have hnil' : ∀ q ∈ rest, q.ms ≠ none :=
      fun q hq => hnil q (List.mem_cons_of_mem p hq)
    rw [readLoop_cons eval orig p rest newTodos best bestMark hnotpill hpms]
    by_cases hpos : 0 < eval p
    · rw [if_pos hpos]
      have hfil : List.filter (fun q => decide (0 < eval q)) (p :: rest) =
          p :: List.filter (fun q => decide (0 < eval q)) rest :=
        List.filter_cons_of_pos (by simpa using hpos)
      by_cases hle : eval p ≤ bestMark
      · -- kept for later: the running best is unchanged
        rw [if_pos hle]
        have hbsome : ∃ b0, best = some b0 := by
          cases best with
          | none => exact absurd (lt_of_lt_of_le hpos hle) (by simp [hbest.1])
          | some b0 => exact ⟨b0, rfl⟩
        obtain ⟨b0, rfl⟩ := hbsome
        have hacc' : ∀ q ∈ newTodos ++ [p], 0 < eval q ∧ eval q ≤ bestMark := by
          intro q hq
          rcases List.mem_append.mp hq with h | h
          · exact hacc q h
          · rcases List.mem_singleton.mp h with rfl
            exact ⟨hpos, hle⟩
        obtain ⟨ihdone, ihnone, ihsome⟩ :=
          ih (newTodos ++ [p]) (some b0) bestMark hnil' hbest hacc'
        refine ⟨ihdone, ?_, ?_⟩
        · intro hnone
          cases (ihnone hnone).1
        · intro b hb
          obtain ⟨h1, h2, h3, h4, h5⟩ := ihsome b hb
          refine ⟨h1, h2, ?_, ?_, ?_⟩
          · intro q hq
            rcases List.mem_cons.mp hq with rfl | h
            · exact le_trans hle h2
            · exact h3 q h
          · rcases h4 with h | h
            · exact Or.inl (List.mem_cons_of_mem p h)
            · exact Or.inr h
          · rw [hfil]
            exact h5.trans (perm_move_mid newTodos (some b0).toList _ p)
      · -- the pair becomes the new running best
        rw [if_neg hle]
        have hbest' : (match some p with
            | none => eval p = 0 ∧ newTodos ++ best.toList = []
            | some b => eval b = eval p ∧ 0 < eval p) := ⟨rfl, hpos⟩
        have hacc' : ∀ q ∈ newTodos ++ best.toList,
            0 < eval q ∧ eval q ≤ eval p := by
          intro q hq
          rcases List.mem_append.mp hq with h | h
          · obtain ⟨hq1, hq2⟩ := hacc q h
            exact ⟨hq1, by omega⟩
          · cases hbb : best with
            | none => rw [hbb] at h; cases h
            | some b0 =>
              rw [hbb] at h hbest
              rcases List.mem_singleton.mp h with rfl
              obtain ⟨hb1, hb2⟩ := hbest
              exact ⟨by omega, by omega⟩
        obtain ⟨ihdone, ihnone, ihsome⟩ :=
          ih (newTodos ++ best.toList) (some p) (eval p) hnil' hbest' hacc'
        refine ⟨ihdone, ?_, ?_⟩
        · intro hnone
          cases (ihnone hnone).1
        · intro b hb
          obtain ⟨h1, h2, h3, h4, h5⟩ := ihsome b hb
          have hmark0 : 0 ≤ bestMark := by
            cases hbb : best with
            | none => rw [hbb] at hbest; omega
            | some b0 => rw [hbb] at hbest; omega
          refine ⟨h1, by omega, ?_, ?_, ?_⟩
          · intro q hq
            rcases List.mem_cons.mp hq with rfl | h
            · exact h2
            · exact h3 q h
          · rcases h4 with h | h
            · exact Or.inl (List.mem_cons_of_mem p h)
            · rcases Option.some_injective _ h.symm with rfl
              exact Or.inl (List.mem_cons_self _ _)
          · rw [hfil]
            refine h5.trans ?_
            simpa using perm_move_last (newTodos ++ best.toList) _ p
    · -- zero or negative mark: dropped
      rw [if_neg hpos]
      have hfil : List.filter (fun q => decide (0 < eval q)) (p :: rest) =
          List.filter (fun q => decide (0 < eval q)) rest :=
        List.filter_cons_of_neg (by simpa using hpos)
      obtain ⟨ihdone, ihnone, ihsome⟩ :=
        ih newTodos best bestMark hnil' hbest hacc
      refine ⟨ihdone, ?_, ?_⟩
      · intro hnone
        obtain ⟨hb, hall⟩ := ihnone hnone
        refine ⟨hb, ?_⟩
        intro q hq
        rcases List.mem_cons.mp hq with rfl | h
        · omega
        · exact hall q h
      · intro b hb
        obtain ⟨h1, h2, h3, h4, h5⟩ := ihsome b hb
        refine ⟨h1, h2, ?_, ?_, ?_⟩
        · intro q hq
          rcases List.mem_cons.mp hq with rfl | h
          · omega
          · exact h3 q h
        · rcases h4 with h | h
          · exact Or.inl (List.mem_cons_of_mem p h)
          · exact Or.inr h
        · rw [hfil]
          exact h5

/-- C7.  One `readTodos` pass over a non-empty pending list without nil
entries, containing at least one positive-scoring item: it does not
stop, extracts a single positive-scoring item that is maximal among all
pending items, and the written-back pending list together with the
extracted item is exactly (a permutation of) the positively-scored
items - so zero-scored items are dropped, and repeated passes verify in
descending score order. -/
theorem processor_selection (eval : sigPair → Int) (todos : List sigPair)
    (hms : ∀ p ∈ todos, p.ms ≠ none)
    (hpos : ∃ p ∈ todos, 0 < eval p) :
    (readTodos eval todos).done = false ∧
    ∃ b, (readTodos eval todos).best = some b ∧ b ∈ todos ∧ 0 < eval b ∧
      (∀ p ∈ todos, eval p ≤ eval b) ∧
      List.Perm ((readTodos eval todos).todos ++ [b])
        (todos.filter (fun p => decide (0 < eval p))) := by
  obtain ⟨hdone, hnone, hsome⟩ :=
    readLoop_spec eval todos todos [] none 0 hms ⟨rfl, rfl⟩ (by intro p hp; cases hp)
  refine ⟨hdone, ?_⟩
  cases hb : (readTodos eval todos).best with
  | none =>
    exfalso
    obtain ⟨q, hq, hqpos⟩ := hpos
    have := (hnone hb).2 q hq
    omega
  | some b =>
    obtain ⟨h1, _, h3, h4, h5⟩ := hsome b hb
    refine ⟨b, rfl, ?_, h1, h3, ?_⟩
    · rcases h4 with h | h
      · exact h
      · cases h
    · simpa using h5

/-- The emission invariant of the final-signature logic: everything on
`out` meets the threshold, emissions are pairwise strictly increasing,
and the recorded best dominates every emission so far (with no best,
nothing has been emitted). -/
def emitInv (threshold : Nat) (st : handelState) : Prop :=
  (∀ m ∈ st.out, threshold ≤ m.Cardinality) ∧
  st.out.Pairwise (fun a b => a.Cardinality < b.Cardinality) ∧
  (match st.best with
   | none => st.out = []
   | some b => ∀ m ∈ st.out, m.Cardinality ≤ b.Cardinality)

lemma handelStep_inv (threshold : Nat) (st : handelState) (e : handelEvent)
    (h : emitInv threshold st) : emitInv threshold (handelStep threshold st e) := by
  obtain ⟨h1, h2, h3⟩ := h
  cases e with
  | stop =>
    exact ⟨h1, h2, h3⟩
  | verified sig =>
    show emitInv threshold (checkFinalSignature threshold st sig)
    unfold checkFinalSignature
    by_cases hth : sig.BitSet.Cardinality < threshold
    · rw [if_pos hth]
      exact ⟨h1, h2, h3⟩
    · rw [if_neg hth]
      have hth' : threshold ≤ sig.Cardinality := Nat.le_of_not_lt hth
      cases hbest : st.best with
      | none =>
        simp only
        by_cases hdone : st.done
        · rw [if_pos hdone]
          exact ⟨h1, h2, h3⟩
        · rw [if_neg hdone]
          rw [hbest] at h3
          refine ⟨?_, ?_, ?_⟩
          · intro m hm
            simp only [h3, List.nil_append, List.mem_singleton] at hm
            rw [hm]
            exact hth'
          · simp [h3]
          · intro m hm
            simp only [h3, List.nil_append, List.mem_singleton] at hm
            rw [hm]
      | some b =>
        simp only
        by_cases hgt : sig.Cardinality > b.Cardinality
        · rw [if_pos hgt]
          by_cases hdone : st.done
          · rw [if_pos hdone]
            exact ⟨h1, h2, h3⟩
          · rw [if_neg hdone]
            rw [hbest] at h3
            refine ⟨?_, ?_, ?_⟩
            · intro m hm
              rcases List.mem_append.mp hm with hm | hm
              · exact h1 m hm
              · rw [List.mem_singleton.mp hm]
                exact hth'
            · rw [List.pairwise_append]
              refine ⟨h2, List.pairwise_singleton _ _, ?_⟩
              intro a ha b' hb'
              rw [List.mem_singleton.mp hb']
              exact lt_of_le_of_lt (h3 a ha) hgt
            · intro m hm
              rcases List.mem_append.mp hm with hm | hm
              · exact le_trans (h3 m hm) (le_of_lt hgt)
              · rw [List.mem_singleton.mp hm]
        · rw [if_neg hgt]
          exact ⟨h1, h2, h3⟩

lemma runHandel_inv (threshold : Nat) :
    ∀ (events : List handelEvent) (st : handelState), emitInv threshold st →
      emitInv threshold (events.foldl (handelStep threshold) st) := by
  intro events
  induction events with
  | nil => intro st h; exact h
  | cons e events ih =>
    intro st h
    exact ih (handelStep threshold st e) (handelStep_inv threshold st e h)

/-- C8.  Final emission dominance: over any sequence of verified
signatures and stop events, every multi-signature emitted on the
final-signatures channel has cardinality at least the configured
threshold, and the emissions are pairwise strictly increasing in
cardinality (each one strictly greater than every earlier one). -/
theorem final_emission_dominance (threshold : Nat) (events : List handelEvent) :
    (∀ m ∈ (runHandel threshold events).out, threshold ≤ m.Cardinality) ∧
    (runHandel threshold events).out.Pairwise
      (fun a b => a.Cardinality < b.Cardinality) := by
  have h := runHandel_inv threshold events initHandelState
    ⟨fun m hm => absurd hm (List.not_mem_nil m), List.Pairwise.nil, rfl⟩
  exact ⟨h.1, h.2.1⟩

/-- C10 (against the claim).  The candidate set and pair exhibiting the
publication of a length-mismatched signature when verification is
replaced by a sleep. -/
def idsAtC10 : Nat → Except String (List Identity) :=
  fun _ => .ok [⟨0, {0}⟩, ⟨1, {1}⟩]

/-- The length-mismatched pair: its bitset has length 1 while level 1
has two identities. -/
def spC10 : sigPair := ⟨0, 1, some ⟨{5}, ⟨[true]⟩⟩⟩

/-- C10 (against the claim): with `sigSleepTime > 0`,
`verifyAndPublish` publishes the pair without calling `verifySignature`
(processing.go lines 250-255), so a pair whose bitset length (1) differs
from the candidate-set size (2) is still published on `Verified`. -/
theorem verified_length_counterexample :
    verifyAndPublish 1 idsAtC10 (fun _ _ => true) spC10 = true ∧
    (∃ ids, idsAtC10 spC10.level = .ok ids ∧ ids.length = 2) ∧
    (∃ ms, spC10.ms = some ms ∧ ms.BitSet.BitLength = 1) ∧
    verifySignature idsAtC10 (fun _ _ => true) spC10 =
      .error "handel: inconsistent bitset with given level" := by
  refine ⟨rfl, ⟨_, rfl, rfl⟩, ⟨_, rfl, rfl⟩, rfl⟩

/-- C10 (amended).  `verifySignature` rejects any pair whose bitset
length differs from the number of identities of its level, for every
scheme check; consequently, when `sigSleepTime ≤ 0` (real verification),
such a pair is never published on the `Verified` channel. -/
theorem verify_length_guard (idsAt : Nat → Except String (List Identity))
    (sv : Multiset Nat → Sig → Bool) (sleep : Int) (sp : sigPair)
    (ms : MultiSignature) (ids : List Identity)
    (hms : sp.ms = some ms) (hids : idsAt sp.level = .ok ids)
    (hne : ms.BitSet.BitLength ≠ ids.length) :
    verifySignature idsAt sv sp =
      .error "handel: inconsistent bitset with given level" ∧
    (sleep ≤ 0 → verifyAndPublish sleep idsAt sv sp = false) := by
  have h1 : verifySignature idsAt sv sp =
      .error "handel: inconsistent bitset with given level" := by
    unfold verifySignature
    rw [hms, hids]
    simp only
    rw [if_pos hne]
  refine ⟨h1, ?_⟩
  intro hs
  unfold verifyAndPublish
  rw [if_pos hs, h1]

lemma replicate_false_Get (n i : Nat) :
    (⟨List.replicate n false⟩ : BitSet).Get i = false := by
  unfold BitSet.Get
  rw [List.getD_eq_getElem?_getD, List.getElem?_replicate]
  split <;> rfl

lemma newReplaceStore_WF (sizeF : Nat → Nat) :
    WFall sizeF (replaceStore.newReplaceStore sizeF) := by
  intro l
  constructor
  · simp [replaceStore.newReplaceStore, BitSet.BitLength]
  · intro b hb
    cases hb

lemma newReplaceStore_SUB (sizeF : Nat → Nat) :
    SUB (replaceStore.newReplaceStore sizeF) := by
  intro l i hi
  have := replicate_false_Get (sizeF l) i
  rw [show (replaceStore.newReplaceStore sizeF).indivSigsVerified l =
    (⟨List.replicate (sizeF l) false⟩ : BitSet) from rfl] at hi
  rw [this] at hi
  cases hi

/-- The individual used by the C1 witness run: bit 0 at level 2. -/
def msIw : MultiSignature := ⟨{1}, ⟨[true, false]⟩⟩

/-- The disjoint aggregate stored after the individual in the witness
run. -/
def msAw : MultiSignature := ⟨{2}, ⟨[false, true]⟩⟩

/-- Witness for the individual-preservation theorem: store the
individual for local index 0 at level 2 and then a disjoint signature at
the same level; the best then present at level 2 is the merged signature
and still has bit 0 set. -/
theorem individual_preservation_witness :
    ((applyStores (replaceStore.newReplaceStore (fun _ => 2))
        ([] ++ (2, msIw) :: [(2, msAw)])).Best 2).1 =
      some ⟨({2, 1} : Sig), ⟨[true, true]⟩⟩ ∧
    (⟨({2, 1} : Sig), ⟨[true, true]⟩⟩ : MultiSignature).BitSet.Get 0 = true := by
  have h := individual_preservation (fun _ => 2)
      (replaceStore.newReplaceStore (fun _ => 2))
      (newReplaceStore_WF _) (newReplaceStore_SUB _) [] [(2, msAw)] 2 msIw 0
      (by decide) (by decide) (by decide)
  exact ⟨by decide, h.2 _ (by decide)⟩

/-- Witness for the store-monotonicity theorem: at level 2 of the
candidate tree of node 1 among 8 (candidate-set size 2), two stores of
one-bit signatures give non-decreasing best cardinalities bounded by
2. -/
theorem store_monotonicity_witness :
    bestCard (applyStoresAt (replaceStore.newReplaceStore (fun _ => 2)) 2
        ([msIw, msAw].take 1)) 2 ≤
      bestCard (applyStoresAt (replaceStore.newReplaceStore (fun _ => 2)) 2
        ([msIw, msAw].take 2)) 2 ∧
    bestCard (applyStoresAt (replaceStore.newReplaceStore (fun _ => 2)) 2
        ([msIw, msAw].take 2)) 2 ≤ 2 :=
  store_monotonicity (NewBinPartitioner 1 8) (fun _ => 2) 2
    (by
      have h8 : NewBinPartitioner 1 8 = ⟨1, 3, 8⟩ := by
        unfold NewBinPartitioner log2
        rw [show (8 : Nat) = 2 ^ 3 by norm_num, Nat.clog_pow 2 3 (by norm_num)]
      rw [h8]
      rfl)
    (replaceStore.newReplaceStore (fun _ => 2)) (newReplaceStore_WF _)
    [msIw, msAw] (by decide) 1 2 (by decide)

/-- The store used by the saturated-level evaluation witness: level 1
expects one signature and already has a full best. -/
def rSatC4 : replaceStore where
  m := fun l => if l = 1 then some ⟨{0}, ⟨[true]⟩⟩ else none
  highest := 1
  part := fun _ => 1
  indivSigsVerified := fun _ => ⟨[false]⟩
  individualSigs := fun _ _ => none

/-- The incoming individual used by the evaluation witnesses. -/
def spEvalC4 : incomingSig := ⟨0, 1, ⟨{3}, ⟨[true]⟩⟩⟩

/-- The incoming signature for the value-adding, non-completing case:
one bit out of three. -/
def spPartialC4 : incomingSig := ⟨0, 1, ⟨{3}, ⟨[true, false, false]⟩⟩⟩

/-- Witness for the evaluation-score theorem: a saturated level scores
0; completing an empty one-slot level scores `1000000 - 1`; adding one
bit out of three scores `30000 - 100 + 1`. -/
theorem evaluate_score_cases_witness :
    replaceStore.unsafeEvaluate rSatC4 spEvalC4 = 0 ∧
    replaceStore.unsafeEvaluate (replaceStore.newReplaceStore (fun _ => 1)) spEvalC4 =
      1000000 - (spEvalC4.level : Int) ∧
    replaceStore.unsafeEvaluate (replaceStore.newReplaceStore (fun _ => 3)) spPartialC4 =
      30000 - (spPartialC4.level : Int) * 100 +
        replaceStore.evalAdded (replaceStore.newReplaceStore (fun _ => 3)) spPartialC4 := by
  refine ⟨?_, ?_, ?_⟩
  · exact (evaluate_score_cases rSatC4 spEvalC4).1 ⟨{0}, ⟨[true]⟩⟩ (by decide) (by decide)
  · exact (evaluate_score_cases (replaceStore.newReplaceStore (fun _ => 1)) spEvalC4).2.1
      (by decide) (by decide) (by decide) (by decide)
      (fun m2 h => by simp [replaceStore.newReplaceStore] at h) (by decide)
  · exact (evaluate_score_cases (replaceStore.newReplaceStore (fun _ => 3)) spPartialC4).2.2
      (by decide) (by decide) (by decide) (by decide) (by decide)

/-- Witness for the non-negative-evaluation theorem at a concrete store
and incoming signature. -/
theorem evaluate_nonneg_witness :
    0 ≤ replaceStore.unsafeEvaluate rSatC4 spEvalC4 ∧
    replaceStore.Evaluate rSatC4 spEvalC4 =
      .ok (replaceStore.unsafeEvaluate rSatC4 spEvalC4) :=
  evaluate_nonneg rSatC4 spEvalC4 (by decide)

/-- The three processor items of scenario S6, with evaluator scores 5,
20 and 10 keyed by origin. -/
def p5C7 : sigPair := ⟨0, 1, some ⟨{0}, ⟨[true]⟩⟩⟩

/-- Score-20 item. -/
def p20C7 : sigPair := ⟨1, 1, some ⟨{0}, ⟨[true]⟩⟩⟩

/-- Score-10 item. -/
def p10C7 : sigPair := ⟨2, 1, some ⟨{0}, ⟨[true]⟩⟩⟩

/-- The fixed evaluator of scenario S6. -/
def evC7 : sigPair → Int :=
  fun p => if p.origin = 1 then 20 else if p.origin = 2 then 10 else 5

/-- Witness for the processor-selection theorem: with scores 5, 20, 10
added in that order, successive passes extract the score-20, then the
score-10, then the score-5 item. -/
theorem processor_selection_witness :
    (readTodos evC7 [p5C7, p20C7, p10C7]).done = false ∧
    (readTodos evC7 [p5C7, p20C7, p10C7]).best = some p20C7 ∧
    (readTodos evC7 (readTodos evC7 [p5C7, p20C7, p10C7]).todos).best = some p10C7 ∧
    (readTodos evC7 (readTodos evC7
        (readTodos evC7 [p5C7, p20C7, p10C7]).todos).todos).best = some p5C7 :=
  ⟨(processor_selection evC7 [p5C7, p20C7, p10C7] (by decide) (by decide)).1,
    by decide, by decide, by decide⟩

/-- Witness for the length-guard theorem: with real verification
(`sigSleepTime = 0`) the mismatched pair is rejected and not
published. -/
theorem verify_length_guard_witness :
    verifySignature idsAtC10 (fun _ _ => true) spC10 =
      .error "handel: inconsistent bitset with given level" ∧
    verifyAndPublish 0 idsAtC10 (fun _ _ => true) spC10 = false := by
  have h := verify_length_guard idsAtC10 (fun _ _ => true) 0 spC10
    ⟨{5}, ⟨[true]⟩⟩ [⟨0, {0}⟩, ⟨1, {1}⟩] rfl rfl (by decide)
  exact ⟨h.1, h.2 (by decide)⟩

namespace binomialPartitioner

lemma isSetI_natCast (id m t : Nat) :
    isSetI id ((m : Int) + (t : Int)) = id.testBit (m + t) := by
  unfold isSetI
  rw [if_pos (by positivity)]
  rw [← Nat.cast_add, Int.toNat_natCast]

lemma div_pow_succ (x k : Nat) :
    x / 2 ^ k = 2 * (x / 2 ^ (k + 1)) + (x / 2 ^ k) % 2 := by
  have h1 : x / 2 ^ k / 2 = x / 2 ^ (k + 1) := by
    rw [Nat.div_div_eq_div_mul, pow_succ]
  omega

/-- The `rangeLevel` loop on an aligned dyadic block containing `id`:
with `s = t + 1` iterations remaining down to bit `m`, starting from the
block of size `2 ^ (m + t + 1)` around `id`, the loop narrows to the
half of the bit-`m` block of `id` that `id` is NOT in. -/
lemma rangeLoop_succ_eq (id size m : Nat) (hid : id < size) :
    ∀ t : Nat,
      rangeLoop id size (m : Int) (t + 1)
          ((id / 2 ^ (m + t + 1)) * 2 ^ (m + t + 1))
          ((id / 2 ^ (m + t + 1)) * 2 ^ (m + t + 1) + 2 ^ (m + t + 1)) =
        (if id.testBit m then
          ((id / 2 ^ (m + 1)) * 2 ^ (m + 1),
            (id / 2 ^ (m + 1)) * 2 ^ (m + 1) + 2 ^ m)
         else
          ((id / 2 ^ (m + 1)) * 2 ^ (m + 1) + 2 ^ m,
            (id / 2 ^ (m + 1)) * 2 ^ (m + 1) + 2 ^ (m + 1))) := by
  intro t
  induction t with
  | zero =>
    simp only [Nat.add_zero]
    rw [rangeLoop, if_pos (Nat.le_add_right _ _)]
    have hbit : isSetI id ((m : Int) + ((0 : Nat) : Int)) = id.testBit m := by
      rw [isSetI_natCast, Nat.add_zero]
    have hmid : ((id / 2 ^ (m + 1)) * 2 ^ (m + 1) + 2 ^ (m + 1) +
        (id / 2 ^ (m + 1)) * 2 ^ (m + 1)) / 2 =
        (id / 2 ^ (m + 1)) * 2 ^ (m + 1) + 2 ^ m := by
      have h2 : 2 ^ (m + 1) = 2 * 2 ^ m := by ring
      omega
    cases hb : id.testBit m with
    | true =>
      simp only [hbit, hb, hmid, reduceIte]
      split_ifs <;> rfl
    | false =>
      simp only [hbit, hb, hmid, reduceIte]
      split_ifs <;> rfl
  | succ t ih =>
    have hexp : m + (t + 1) + 1 = (m + t + 1) + 1 := by omega
    rw [hexp]
    rw [rangeLoop, if_pos (Nat.le_add_right _ _)]
    have hbit : isSetI id ((m : Int) + ((t + 1 : Nat) : Int)) =
        id.testBit (m + t + 1) := by
      rw [isSetI_natCast]
      rw [show m + (t + 1) = m + t + 1 from by omega]
    have hq := div_pow_succ id (m + t + 1)
    have htb : id.testBit (m + t + 1) =
        decide (id / 2 ^ (m + t + 1) % 2 = 1) := Nat.testBit_to_div_mod
    have hmid : ((id / 2 ^ ((m + t + 1) + 1)) * 2 ^ ((m + t + 1) + 1) +
        2 ^ ((m + t + 1) + 1) +
        (id / 2 ^ ((m + t + 1) + 1)) * 2 ^ ((m + t + 1) + 1)) / 2 =
        (id / 2 ^ ((m + t + 1) + 1)) * 2 ^ ((m + t + 1) + 1) +
          2 ^ (m + t + 1) := by
      have h2 : 2 ^ ((m + t + 1) + 1) = 2 * 2 ^ (m + t + 1) := by ring
      omega
    have hple : (id / 2 ^ (m + t + 1)) * 2 ^ (m + t + 1) ≤ id :=
      Nat.div_mul_le_self id _
    have hppos : 2 ≤ 2 ^ (m + t + 1) := by
      calc 2 = 2 ^ 1 := by norm_num
        _ ≤ 2 ^ (m + t + 1) := Nat.pow_le_pow_right (by norm_num) (by omega)
    cases hb : id.testBit (m + t + 1) with
    | true =>
      have hmod : id / 2 ^ (m + t + 1) % 2 = 1 := by
        rw [hb] at htb
        exact of_decide_eq_true htb.symm
      have hmn : (id / 2 ^ ((m + t + 1) + 1)) * 2 ^ ((m + t + 1) + 1) +
          2 ^ (m + t + 1) = (id / 2 ^ (m + t + 1)) * 2 ^ (m + t + 1) := by
        have h2 : 2 ^ ((m + t + 1) + 1) = 2 * 2 ^ (m + t + 1) := by ring
        calc (id / 2 ^ ((m + t + 1) + 1)) * 2 ^ ((m + t + 1) + 1) +
            2 ^ (m + t + 1)
            = (2 * (id / 2 ^ ((m + t + 1) + 1)) + 1) * 2 ^ (m + t + 1) := by
              rw [h2]; ring
          _ = (id / 2 ^ (m + t + 1)) * 2 ^ (m + t + 1) := by
              congr 1
              omega
      have hmx : (id / 2 ^ ((m + t + 1) + 1)) * 2 ^ ((m + t + 1) + 1) +
          2 ^ ((m + t + 1) + 1) =
          (id / 2 ^ (m + t + 1)) * 2 ^ (m + t + 1) + 2 ^ (m + t + 1) := by
        have h2 : 2 ^ ((m + t + 1) + 1) = 2 * 2 ^ (m + t + 1) := by ring
        omega
      simp only [hbit, hb, hmid, reduceIte, if_neg (Nat.succ_ne_zero t)]
      rw [hmn, hmx]
      rw [if_neg (by omega), if_neg (by push_neg; constructor <;> omega)]
      exact ih
    | false =>
      have hmod : id / 2 ^ (m + t + 1) % 2 = 0 := by
        rw [hb] at htb
        have := of_decide_eq_false htb.symm
        omega
      have hmn : (id / 2 ^ ((m + t + 1) + 1)) * 2 ^ ((m + t + 1) + 1) =
          (id / 2 ^ (m + t + 1)) * 2 ^ (m + t + 1) := by
        have h2 : 2 ^ ((m + t + 1) + 1) = 2 * 2 ^ (m + t + 1) := by ring
        calc (id / 2 ^ ((m + t + 1) + 1)) * 2 ^ ((m + t + 1) + 1)
            = (2 * (id / 2 ^ ((m + t + 1) + 1))) * 2 ^ (m + t + 1) := by
              rw [h2]; ring
          _ = (id / 2 ^ (m + t + 1)) * 2 ^ (m + t + 1) := by
              congr 1
              omega
      simp only [hbit, hb, hmid, reduceIte, if_neg (Nat.succ_ne_zero t),
        Bool.false_eq_true]
      rw [hmn]
      rw [if_neg (by omega), if_neg (by push_neg; constructor <;> omega)]
      exact ih

lemma div_pow_eq_iff (x m k : Nat) :
    x / 2 ^ m = k ↔ k * 2 ^ m ≤ x ∧ x < (k + 1) * 2 ^ m := by
  rw [show (x / 2 ^ m = k ↔ k ≤ x / 2 ^ m ∧ x / 2 ^ m < k + 1) from by omega]
  rw [Nat.le_div_iff_mul_le (by positivity), Nat.div_lt_iff_lt_mul (by positivity)]

lemma div_pow_div_pow (x a b : Nat) : x / 2 ^ a / 2 ^ b = x / 2 ^ (a + b) := by
  rw [Nat.div_div_eq_div_mul, pow_add]

/-- Closed form of `rangeLevel` for a power-of-two registry: the
candidate set at a level is the half of the id's dyadic block at that
level that the id is not in. -/
lemma rangeLevel_eq (n id level : Nat) (hid : id < 2 ^ n) (h1 : 1 ≤ level)
    (hn : level ≤ n) :
    (NewBinPartitioner id (2 ^ n)).rangeLevel level =
      .ok (if id.testBit (level - 1) then
        ((id / 2 ^ level) * 2 ^ level,
          (id / 2 ^ level) * 2 ^ level + 2 ^ (level - 1))
       else
        ((id / 2 ^ level) * 2 ^ level + 2 ^ (level - 1),
          (id / 2 ^ level) * 2 ^ level + 2 ^ level)) := by
  have hbs : log2 (2 ^ n) = n := by
    unfold log2
    exact Nat.clog_pow 2 n (by norm_num)
  have hloop := rangeLoop_succ_eq id (2 ^ n) (level - 1) hid (n - level)
  have hexp : (level - 1) + (n - level) + 1 = n := by omega
  rw [hexp] at hloop
  have hz : id / 2 ^ n = 0 := Nat.div_eq_of_lt hid
  rw [hz] at hloop
  simp only [Nat.zero_mul, Nat.zero_add] at hloop
  rw [show (level - 1) + 1 = level from by omega] at hloop
  simp only [rangeLevel, NewBinPartitioner, hbs]
  rw [if_neg (by omega)]
  have hsteps : (((n : Nat) : Int) - ((level : Int) - 1)).toNat = (n - level) + 1 := by
    omega
  have hmx : ((level : Int) - 1) = (((level - 1 : Nat)) : Int) := by omega
  rw [hsteps, hmx, hloop]

/-- Membership in a candidate set: `x` shares the id's quotient at the
level (the common prefix) but differs at the bit below (it sits in the
opposite half). -/
lemma mem_candSet_iff (n id level : Nat) (hid : id < 2 ^ n) (h1 : 1 ≤ level)
    (hn : level ≤ n) (x : Nat) :
    x ∈ (NewBinPartitioner id (2 ^ n)).candSet level ↔
      (x / 2 ^ level = id / 2 ^ level ∧
        x / 2 ^ (level - 1) ≠ id / 2 ^ (level - 1)) := by
  have hm1 : (level - 1) + 1 = level := by omega
  have hidsplit : id / 2 ^ (level - 1) =
      2 * (id / 2 ^ level) + (id / 2 ^ (level - 1)) % 2 := by
    have := div_pow_succ id (level - 1)
    rw [hm1] at this
    exact this
  have hxsplit : x / 2 ^ (level - 1) =
      2 * (x / 2 ^ level) + (x / 2 ^ (level - 1)) % 2 := by
    have := div_pow_succ x (level - 1)
    rw [hm1] at this
    exact this
  have htb : id.testBit (level - 1) =
      decide (id / 2 ^ (level - 1) % 2 = 1) := Nat.testBit_to_div_mod
  have hpow : 2 ^ level = 2 * 2 ^ (level - 1) := by
    conv_lhs => rw [← hm1]
    rw [pow_succ]
    ring
  have hxmod : (x / 2 ^ (level - 1)) % 2 < 2 := Nat.mod_lt _ (by norm_num)
  unfold candSet
  rw [rangeLevel_eq n id level hid h1 hn]
  cases hb : id.testBit (level - 1) with
  | true =>
    have hmod : id / 2 ^ (level - 1) % 2 = 1 := by
      rw [hb] at htb
      exact of_decide_eq_true htb.symm
    simp only [if_true, Finset.mem_Ico]
    have hlo : (id / 2 ^ level) * 2 ^ level =
        (2 * (id / 2 ^ level)) * 2 ^ (level - 1) := by
      rw [hpow]; ring
    have hhi : (id / 2 ^ level) * 2 ^ level + 2 ^ (level - 1) =
        (2 * (id / 2 ^ level) + 1) * 2 ^ (level - 1) := by
      rw [hpow]; ring
    rw [hhi, hlo]
    rw [show ((2 * (id / 2 ^ level)) * 2 ^ (level - 1) ≤ x ∧
        x < (2 * (id / 2 ^ level) + 1) * 2 ^ (level - 1)) ↔
        x / 2 ^ (level - 1) = 2 * (id / 2 ^ level) from
      (div_pow_eq_iff x (level - 1) (2 * (id / 2 ^ level))).symm]
    constructor
    · intro h
      constructor
      · have : x / 2 ^ (level - 1) / 2 = x / 2 ^ level := by
          have := div_pow_div_pow x (level - 1) 1
          simpa [hm1] using this
        omega
      · omega
    · rintro ⟨hq, hne⟩
      omega
  | false =>
    have hmod : id / 2 ^ (level - 1) % 2 = 0 := by
      rw [hb] at htb
      have := of_decide_eq_false htb.symm
      omega
    simp only [Bool.false_eq_true, if_false, Finset.mem_Ico]
    have hlo : (id / 2 ^ level) * 2 ^ level + 2 ^ (level - 1) =
        (2 * (id / 2 ^ level) + 1) * 2 ^ (level - 1) := by
      rw [hpow]; ring
    have hhi : (id / 2 ^ level) * 2 ^ level + 2 ^ level =
        (2 * (id / 2 ^ level) + 1 + 1) * 2 ^ (level - 1) := by
      rw [hpow]; ring
    rw [hlo, hhi]
    rw [show ((2 * (id / 2 ^ level) + 1) * 2 ^ (level - 1) ≤ x ∧
        x < (2 * (id / 2 ^ level) + 1 + 1) * 2 ^ (level - 1)) ↔
        x / 2 ^ (level - 1) = 2 * (id / 2 ^ level) + 1 from
      (div_pow_eq_iff x (level - 1) (2 * (id / 2 ^ level) + 1)).symm]
    constructor
    · intro h
      constructor
      · have : x / 2 ^ (level - 1) / 2 = x / 2 ^ level := by
          have := div_pow_div_pow x (level - 1) 1
          simpa [hm1] using this
        omega
      · omega
    · rintro ⟨hq, hne⟩
      omega

/-- Cardinality of a candidate set and the corresponding `Size`. -/
lemma candSet_card_size (n id level : Nat) (hid : id < 2 ^ n) (h1 : 1 ≤ level)
    (hn : level ≤ n) :
    ((NewBinPartitioner id (2 ^ n)).candSet level).card = 2 ^ (level - 1) ∧
    (NewBinPartitioner id (2 ^ n)).Size level = .ok (2 ^ (level - 1)) := by
  have hm1 : (level - 1) + 1 = level := by omega
  have hpow : 2 ^ level = 2 * 2 ^ (level - 1) := by
    conv_lhs => rw [← hm1]
    rw [pow_succ]
    ring
  unfold candSet Size
  rw [rangeLevel_eq n id level hid h1 hn]
  cases hb : id.testBit (level - 1) with
  | true =>
    simp only [if_true]
    constructor
    · rw [Nat.card_Ico]
      omega
    · exact congrArg Except.ok (by omega)
  | false =>
    simp only [Bool.false_eq_true, if_false]
    constructor
    · rw [Nat.card_Ico]
      omega
    · exact congrArg Except.ok (by omega)

end binomialPartitioner

/-- C3.  For a power-of-two registry and any own id, the candidate sets
computed by the partitioner at levels `1..log₂N` are pairwise disjoint,
their union together with the singleton of the own id is exactly
`[0, N)`, and the candidate set at each level has exactly `2^(level-1)`
elements, which is also what `Size` reports. -/
theorem partitioner_disjointness (n id : Nat) (hid : id < 2 ^ n) :
    (∀ l k, 1 ≤ l → l < k → k ≤ n →
      Disjoint ((NewBinPartitioner id (2 ^ n)).candSet l)
        ((NewBinPartitioner id (2 ^ n)).candSet k)) ∧
    ((Finset.Icc 1 n).biUnion
        (fun l => (NewBinPartitioner id (2 ^ n)).candSet l) ∪ {id} =
      Finset.range (2 ^ n)) ∧
    (∀ l, 1 ≤ l → l ≤ n →
      ((NewBinPartitioner id (2 ^ n)).candSet l).card = 2 ^ (l - 1) ∧
      (NewBinPartitioner id (2 ^ n)).Size l = .ok (2 ^ (l - 1))) := by
  refine ⟨?_, ?_, fun l hl1 hln =>
    binomialPartitioner.candSet_card_size n id l hid hl1 hln⟩
  · intro l k hl hlk hkn
    rw [Finset.disjoint_left]
    intro x hxl hxk
    rw [binomialPartitioner.mem_candSet_iff n id l hid hl (by omega)] at hxl
    rw [binomialPartitioner.mem_candSet_iff n id k hid (by omega) hkn] at hxk
    have hx := binomialPartitioner.div_pow_div_pow x l ((k - 1) - l)
    have hi := binomialPartitioner.div_pow_div_pow id l ((k - 1) - l)
    rw [show l + ((k - 1) - l) = k - 1 from by omega] at hx hi
    exact hxk.2 (by rw [← hx, ← hi, hxl.1])
  · apply Finset.ext
    intro x
    simp only [Finset.mem_union, Finset.mem_biUnion, Finset.mem_singleton,
      Finset.mem_range, Finset.mem_Icc]
    constructor
    · rintro (⟨l, ⟨hl1, hln⟩, hx⟩ | rfl)
      · rw [binomialPartitioner.mem_candSet_iff n id l hid hl1 hln] at hx
        have hx2 := binomialPartitioner.div_pow_div_pow x l (n - l)
        have hi2 := binomialPartitioner.div_pow_div_pow id l (n - l)
        rw [show l + (n - l) = n from by omega] at hx2 hi2
        have hz : x / 2 ^ n = 0 := by
          rw [← hx2, hx.1, hi2]
          exact Nat.div_eq_of_lt hid
        exact (Nat.div_eq_zero_iff (by positivity)).mp hz
      · exact hid
    · intro hx
      by_cases hxid : x = id
      · exact Or.inr hxid
      · left
        have hPn : x / 2 ^ n = id / 2 ^ n := by
          rw [Nat.div_eq_of_lt hx, Nat.div_eq_of_lt hid]
        have hP : ∃ j, x / 2 ^ j = id / 2 ^ j := ⟨n, hPn⟩
        have hl := Nat.find_spec hP
        have hlen : Nat.find hP ≤ n := Nat.find_le hPn
        have hl1 : 1 ≤ Nat.find hP := by
          rcases Nat.eq_zero_or_pos (Nat.find hP) with h0 | h
          · exfalso
            have hfs := Nat.find_spec hP
            rw [h0] at hfs
            simp only [pow_zero, Nat.div_one] at hfs
            exact hxid hfs
          · exact h
        have hlm : ¬ (x / 2 ^ (Nat.find hP - 1) = id / 2 ^ (Nat.find hP - 1)) :=
          Nat.find_min hP (by omega)
        exact ⟨Nat.find hP, ⟨hl1, hlen⟩,
          (binomialPartitioner.mem_candSet_iff n id (Nat.find hP) hid hl1
            hlen x).mpr ⟨hl, hlm⟩⟩

/-- Witness for the partitioner theorem at `N = 8`, own id 5: levels 1
and 2 are disjoint, all three levels plus the id cover `[0, 8)`, and the
level-2 candidate set has 2 elements. -/
theorem partitioner_disjointness_witness :
    Disjoint ((NewBinPartitioner 5 (2 ^ 3)).candSet 1)
      ((NewBinPartitioner 5 (2 ^ 3)).candSet 2) ∧
    ((Finset.Icc 1 3).biUnion
        (fun l => (NewBinPartitioner 5 (2 ^ 3)).candSet l) ∪ {5} =
      Finset.range (2 ^ 3)) ∧
    ((NewBinPartitioner 5 (2 ^ 3)).candSet 2).card = 2 ∧
    (NewBinPartitioner 5 (2 ^ 3)).Size 2 = .ok 2 := by
  have h := partitioner_disjointness 3 5 (by norm_num)
  refine ⟨h.1 1 2 (by norm_num) (by norm_num) (by norm_num), h.2.1, ?_, ?_⟩
  · have := (h.2.2 2 (by norm_num) (by norm_num)).1
    simpa using this
  · have := (h.2.2 2 (by norm_num) (by norm_num)).2
    simpa using this

end Handel
